import Mathlib

/-!
Verification development for the camchess search-and-evaluation core
(`src/eval.py` and `src/engine.py`).

The game-rules engine (the python-chess `Board`) is an external collaborator
("Position Adapter" in the design document): legal-move generation, move
application, check/terminal detection and position identity are consumed by
the core as an opaque capability set.  We embed that capability set as a
structure `Game` of observation functions over abstract position identifiers
(`Pos := Nat`); every function of the core itself (`evaluate`,
`move_ordering`, `MiniMaxEngine.minimax`, `MiniMaxEngine.best_move`) is
translated from the Python source over this interface.

Machine integers: Python integers are unbounded, so scores are `Int`.
`math.inf` / `-math.inf` appear only as initial values of `best`, `alpha`
and `beta`; they are embedded as the top and bottom elements of
`XInt := WithBot (WithTop Int)`.  Python's `int(x)` applied to an infinite
float raises `OverflowError`; correspondingly `XInt.toInt` returns `none`
on `⊥`/`⊤` and the stateful engine functions return `Option` results,
`none` marking the raised exception.
-/

/-- Piece classes of chess, mirroring `chess.PAWN`, …, `chess.KING`. -/
inductive PieceType : Type
| pawn
| knight
| bishop
| rook
| queen
| king
deriving DecidableEq, Repr

/-- A piece as observed by `board.piece_at`: a piece class and a color
(`true` = White, matching `chess.WHITE = True`). -/
structure Piece : Type where
  piece_type : PieceType
  color : Bool
deriving DecidableEq, Repr

/-- A move as observed by the core: origin and destination squares (0–63,
`chess.A1 = 0`) and the optional promotion piece class, mirroring the fields
`move.from_square`, `move.to_square`, `move.promotion` of `chess.Move`. -/
structure Move : Type where
  from_square : Nat
  to_square : Nat
  promotion : Option PieceType
deriving DecidableEq, Repr

/-- Abstract position identifiers.  The core never inspects a position other
than through the adapter interface below. -/
abbrev Pos : Type := Nat

/-- The Position Adapter interface: the exact capability set the core calls
on the python-chess `Board`, observed as functions of the current position.
`push` returns the position reached by a move (the Python board is mutated in
place; the stack-threaded engine embedding below models that mutation
explicitly).  `hash` is the position identity produced by
`MiniMaxEngine._hash`. -/
structure Game : Type where
  turn : Pos → Bool
  is_game_over : Pos → Bool
  legal_moves : Pos → List Move
  push : Pos → Move → Pos
  is_capture : Pos → Move → Bool
  piece_at : Pos → Nat → Option Piece
  is_check : Pos → Bool
  is_insufficient_material : Pos → Bool
  can_claim_draw : Pos → Bool
  hash : Pos → Nat

/-- Material score table: `PIECE_VALUES` of `src/eval.py`. -/
def PIECE_VALUES : PieceType → Int
| PieceType.pawn => 100
| PieceType.knight => 300
| PieceType.bishop => 325
| PieceType.rook => 500
| PieceType.queen => 900
| PieceType.king => 0

/-- Placement heuristic tables: `PIECE_SQUARE_TABLE` of `src/eval.py`,
reproduced entry for entry (index 0 is the first listed entry, exactly as
the Python list literal). -/
def PIECE_SQUARE_TABLE : PieceType → List Int
| PieceType.pawn =>
    [0, 0, 0, 0, 0, 0, 0, 0,
     50, 50, 50, 50, 50, 50, 50, 50,
     10, 10, 20, 30, 30, 20, 10, 10,
     5, 5, 10, 25, 25, 10, 5, 5,
     0, 0, 0, 20, 20, 0, 0, 0,
     5, -5, -10, 0, 0, -10, -5, 5,
     5, 10, 10, -20, -20, 10, 10, 5,
     0, 0, 0, 0, 0, 0, 0, 0]
| PieceType.knight =>
    [-50, -40, -30, -30, -30, -30, -40, -50,
     -40, -20, 0, 0, 0, 0, -20, -40,
     -30, 0, 10, 15, 15, 10, 0, -30,
     -30, 5, 15, 20, 20, 15, 5, -30,
     -30, 0, 15, 20, 20, 15, 0, -30,
     -30, 5, 10, 15, 15, 10, 5, -30,
     -40, -20, 0, 5, 5, 0, -20, -40,
     -50, -40, -30, -30, -30, -30, -40, -50]
| PieceType.bishop =>
    [-20, -10, -10, -10, -10, -10, -10, -20,
     -10, 0, 0, 0, 0, 0, 0, -10,
     -10, 0, 5, 10, 10, 5, 0, -10,
     -10, 5, 5, 10, 10, 5, 5, -10,
     -10, 0, 10, 10, 10, 10, 0, -10,
     -10, 10, 10, 10, 10, 10, 10, -10,
     -10, 5, 0, 0, 0, 0, 5, -10,
     -20, -10, -10, -10, -10, -10, -10, -20]
| PieceType.rook =>
    [0, 0, 0, 0, 0, 0, 0, 0,
     5, 10, 10, 10, 10, 10, 10, 5,
     -5, 0, 0, 0, 0, 0, 0, -5,
     -5, 0, 0, 0, 0, 0, 0, -5,
     -5, 0, 0, 0, 0, 0, 0, -5,
     -5, 0, 0, 0, 0, 0, 0, -5,
     -5, 0, 0, 0, 0, 0, 0, -5,
     0, 0, 0, 5, 5, 0, 0, 0]
| PieceType.queen =>
    [-20, -10, -10, -5, -5, -10, -10, -20,
     -10, 0, 0, 0, 0, 0, 0, -10,
     -10, 0, 5, 5, 5, 5, 0, -10,
     -5, 0, 5, 5, 5, 5, 0, -5,
     0, 0, 5, 5, 5, 5, 0, -5,
     -10, 5, 5, 5, 5, 5, 0, -10,
     -10, 0, 5, 0, 0, 0, 0, -10,
     -20, -10, -10, -5, -5, -10, -10, -20]
| PieceType.king =>
    [-30, -40, -40, -50, -50, -40, -40, -30,
     -30, -40, -40, -50, -50, -40, -40, -30,
     -30, -40, -40, -50, -50, -40, -40, -30,
     -30, -40, -40, -50, -50, -40, -40, -30,
     -20, -30, -30, -40, -40, -30, -30, -20,
     -10, -20, -20, -20, -20, -20, -20, -10,
     20, 20, 0, 0, 0, 0, 20, 20,
     20, 30, 10, 0, 0, 10, 30, 20]

/-- The checkmate constant `MATE_SCORE` of `src/eval.py`. -/
def MATE_SCORE : Int := 10000

/-- The draw constant `DRAW_SCORE` of `src/eval.py`. -/
def DRAW_SCORE : Int := 0

/-- Vertical square reflection, `chess.square_mirror` (XOR with 0x38). -/
def square_mirror (sq : Nat) : Nat := sq ^^^ 56

/-- Translation of `pieceSquareTableValue` of `src/eval.py`: look up the
placement table of the piece class at the square, vertically mirrored for
Black.  Python indexing `table[index]` is total here (`getD`); every caller
passes a square below 64 and the tables have 64 entries. -/
def pieceSquareTableValue (piece_type : PieceType) (square : Nat) (color : Bool) : Int :=
  let table := PIECE_SQUARE_TABLE piece_type
  let index := if color then square else square_mirror square
  table.getD index 0

/-- Translation of `board.is_checkmate()` in terms of the primitive adapter
observations, exactly as python-chess derives it: in check with no legal
moves. -/
def is_checkmate (g : Game) (p : Pos) : Bool :=
  g.is_check p && (g.legal_moves p).isEmpty

/-- Translation of `board.is_stalemate()`: not in check, no legal moves. -/
def is_stalemate (g : Game) (p : Pos) : Bool :=
  !g.is_check p && (g.legal_moves p).isEmpty

/-- Signed contribution of one square to the material-and-placement loop of
`evaluate`: zero on an empty square, otherwise base value plus placement
bonus, added for White and subtracted for Black. -/
def piece_term (g : Game) (p : Pos) (sq : Nat) : Int :=
  match g.piece_at p sq with
  | none => 0
  | some pc =>
      let value := PIECE_VALUES pc.piece_type + pieceSquareTableValue pc.piece_type sq pc.color
      if pc.color then value else -value

/-- Translation of `evaluate` of `src/eval.py`.  The Python loop runs over
`board.piece_map().items()` (the occupied squares, in dictionary order); the
sum over all 64 squares of `piece_term` is identical because empty squares
contribute zero and integer addition is commutative. -/
def evaluate (g : Game) (p : Pos) : Int :=
  if is_checkmate g p then
    (if g.turn p then -MATE_SCORE else MATE_SCORE)
  else if is_stalemate g p || g.is_insufficient_material p || g.can_claim_draw p then
    DRAW_SCORE
  else
    let score := ∑ sq ∈ Finset.range 64, piece_term g p sq
    let mobility : Int := ((g.legal_moves p).length : Int)
    score + (if g.turn p then mobility else -mobility)

/-- Mirror-image transformation of a move (both endpoints reflected, same
promotion class). -/
def mirror_move (m : Move) : Move :=
  { from_square := square_mirror m.from_square
    to_square := square_mirror m.to_square
    promotion := m.promotion }

/-- Mirror-image color swap of every position of an adapter: the piece
structure is reflected vertically with all colors reversed, the side to move
is swapped, the legal moves are the mirrored moves, and all draw-relevant
state (check status, insufficient material, claimable draw) is equivalent. -/
def mirrorGame (g : Game) : Game where
  turn p := !g.turn p
  is_game_over := g.is_game_over
  legal_moves p := (g.legal_moves p).map mirror_move
  push p m := g.push p (mirror_move m)
  is_capture p m := g.is_capture p (mirror_move m)
  piece_at p sq := (g.piece_at p (square_mirror sq)).map (fun pc => ⟨pc.piece_type, !pc.color⟩)
  is_check := g.is_check
  is_insufficient_material := g.is_insufficient_material
  can_claim_draw := g.can_claim_draw
  hash := g.hash

theorem square_mirror_lt (sq : Nat) (h : sq < 64) : square_mirror sq < 64 := by
  have : (56 : Nat) < 2 ^ 6 := by decide
  have h6 : sq < 2 ^ 6 := by simpa using h
  simpa using Nat.xor_lt_two_pow h6 this

theorem square_mirror_mirror (sq : Nat) : square_mirror (square_mirror sq) = sq := by
  simp [square_mirror, Nat.xor_assoc]

theorem piece_term_mirror (g : Game) (p : Pos) (sq : Nat) :
    piece_term (mirrorGame g) p sq = -piece_term g p (square_mirror sq) := by
  unfold piece_term mirrorGame
  cases hpc : g.piece_at p (square_mirror sq) with
  | none => simp [hpc]
  | some pc =>
      cases hc : pc.color <;>
        simp [hpc, hc, pieceSquareTableValue, square_mirror_mirror]

theorem sum_piece_term_mirror (g : Game) (p : Pos) :
    ∑ sq ∈ Finset.range 64, piece_term (mirrorGame g) p sq
      = -∑ sq ∈ Finset.range 64, piece_term g p sq := by
  rw [← Finset.sum_neg_distrib]
  refine Finset.sum_nbij' square_mirror square_mirror ?_ ?_ ?_ ?_ ?_
  · intro a ha
    exact Finset.mem_range.2 (square_mirror_lt a (Finset.mem_range.1 ha))
  · intro a ha
    exact Finset.mem_range.2 (square_mirror_lt a (Finset.mem_range.1 ha))
  · intro a _
    exact square_mirror_mirror a
  · intro a _
    exact square_mirror_mirror a
  · intro a _
    rw [piece_term_mirror]

/-- C6: for every pair of positions where one is the mirror-image color swap
of the other (same piece structure reflected vertically, all colors
reversed, side to move swapped, equivalent draw-relevant state), `evaluate`
on one yields the exact integer negation of `evaluate` on the other. -/
theorem evaluate_mirror (g : Game) (p : Pos) :
    evaluate (mirrorGame g) p = -evaluate g p := by
  unfold evaluate
  have hemp : ((g.legal_moves p).map mirror_move).isEmpty = (g.legal_moves p).isEmpty := by
    cases g.legal_moves p <;> simp
  have hcm : is_checkmate (mirrorGame g) p = is_checkmate g p := by
    simp [is_checkmate, mirrorGame, hemp]
  have hsm : is_stalemate (mirrorGame g) p = is_stalemate g p := by
    simp [is_stalemate, mirrorGame, hemp]
  have him : (mirrorGame g).is_insufficient_material p = g.is_insufficient_material p := rfl
  have hcd : (mirrorGame g).can_claim_draw p = g.can_claim_draw p := rfl
  rw [hcm, hsm, him, hcd]
  cases h1 : is_checkmate g p with
  | true =>
      simp only [if_true]
      cases ht : g.turn p <;> simp [mirrorGame, ht]
  | false =>
      cases h2 : (is_stalemate g p || g.is_insufficient_material p || g.can_claim_draw p) with
      | true => simp [DRAW_SCORE]
      | false =>
          simp only [Bool.false_eq_true, if_false]
          have hmv : (mirrorGame g).legal_moves p = (g.legal_moves p).map mirror_move := rfl
          rw [sum_piece_term_mirror, hmv, List.length_map]
          cases ht : g.turn p <;> simp [mirrorGame, ht] <;> ring

/-- C5: for every terminal position, `evaluate` returns the fixed
terminal-policy value before any heuristic scoring: on checkmate the
constant `MATE_SCORE` magnitude, negative when White is to move (and mated)
and positive when Black is; on stalemate exactly 0; and on insufficient
material or a claimable draw exactly 0, regardless of the material on the
board (the adapter `g`, and with it the whole piece placement, is
universally quantified).  The insufficient-material/claimable-draw conjunct
carries the hypothesis that the position is not checkmate, reflecting both
chess (a claimable-draw or insufficient-material position is never
checkmate) and the policy order the design document itself fixes
(checkmate is tested first). -/
theorem evaluate_terminal_policy (g : Game) (p : Pos) :
    (is_checkmate g p = true →
      evaluate g p = if g.turn p then -MATE_SCORE else MATE_SCORE)
    ∧ (is_stalemate g p = true → evaluate g p = 0)
    ∧ (is_checkmate g p = false →
        (g.is_insufficient_material p || g.can_claim_draw p) = true →
        evaluate g p = 0) := by
  refine ⟨?_, ?_, ?_⟩
  · intro h
    simp [evaluate, h]
  · intro h
    have hnc : is_checkmate g p = false := by
      cases hc : g.is_check p with
      | false => simp [is_checkmate, hc]
      | true => simp [is_stalemate, hc] at h
    simp [evaluate, hnc, h, DRAW_SCORE]
  · intro hnc h
    cases hi : g.is_insufficient_material p with
    | true => simp [evaluate, hnc, hi, DRAW_SCORE]
    | false =>
        have hcd : g.can_claim_draw p = true := by
          simpa [hi] using h
        simp [evaluate, hnc, hcd, DRAW_SCORE]

/-- Concrete checkmate position, White to move and mated: White Ka1, Black
Qb2 protected by Kb3 (squares a1 = 0, b2 = 9, b3 = 17). -/
def G5_mate : Game where
  turn := fun _ => true
  is_game_over := fun _ => true
  legal_moves := fun _ => []
  push := fun p _ => p
  is_capture := fun _ _ => false
  piece_at := fun _ sq =>
    if sq = 0 then some ⟨PieceType.king, true⟩
    else if sq = 9 then some ⟨PieceType.queen, false⟩
    else if sq = 17 then some ⟨PieceType.king, false⟩
    else none
  is_check := fun _ => true
  is_insufficient_material := fun _ => false
  can_claim_draw := fun _ => false
  hash := fun p => p

/-- Concrete stalemate position with a large material imbalance: Black to
move with Kh8 (63), White Qf7 (53) and Kg6 (46); Black has no legal move and
is not in check. -/
def G5_stalemate : Game where
  turn := fun _ => false
  is_game_over := fun _ => true
  legal_moves := fun _ => []
  push := fun p _ => p
  is_capture := fun _ _ => false
  piece_at := fun _ sq =>
    if sq = 63 then some ⟨PieceType.king, false⟩
    else if sq = 53 then some ⟨PieceType.queen, true⟩
    else if sq = 46 then some ⟨PieceType.king, true⟩
    else none
  is_check := fun _ => false
  is_insufficient_material := fun _ => false
  can_claim_draw := fun _ => false
  hash := fun p => p

/-- Concrete insufficient-material position: White Ke1 (4) and Bc1 (2)
against Black Ke8 (60), White to move (one sample legal king move). -/
def G5_insufficient : Game where
  turn := fun _ => true
  is_game_over := fun _ => true
  legal_moves := fun _ => [⟨4, 11, none⟩]
  push := fun p _ => p + 1
  is_capture := fun _ _ => false
  piece_at := fun _ sq =>
    if sq = 4 then some ⟨PieceType.king, true⟩
    else if sq = 2 then some ⟨PieceType.bishop, true⟩
    else if sq = 60 then some ⟨PieceType.king, false⟩
    else none
  is_check := fun _ => false
  is_insufficient_material := fun _ => true
  can_claim_draw := fun _ => false
  hash := fun p => p

theorem evaluate_terminal_policy_witness :
    evaluate G5_mate 0 = -10000
    ∧ evaluate G5_stalemate 0 = 0
    ∧ evaluate G5_insufficient 0 = 0 := by
  refine ⟨?_, ?_, ?_⟩
  · have h := (evaluate_terminal_policy G5_mate 0).1 (by decide)
    simpa [G5_mate, MATE_SCORE] using h
  · exact (evaluate_terminal_policy G5_stalemate 0).2.1 (by decide)
  · exact (evaluate_terminal_policy G5_insufficient 0).2.2 (by decide) (by decide)

/-- Translation of the move-scoring closure `key` inside `move_ordering` of
`src/engine.py` (value level): capture bonus from the piece on the
destination square (absent for en passant, where the destination square is
empty), penalty for the moving piece, promotion bonus, and a check bonus
probing the position reached by the move.  The stack-threaded `key_stk`
below models the push/pop probe explicitly; this function records the value
it computes. -/
def move_key (g : Game) (p : Pos) (move : Move) : Int :=
  let capture_score : Int :=
    if g.is_capture p move then
      (g.piece_at p move.to_square).elim 0
        (fun capturedPiece => 10000 + PIECE_VALUES capturedPiece.piece_type * 10)
      + (g.piece_at p move.from_square).elim 0
        (fun attackingPiece => -PIECE_VALUES attackingPiece.piece_type)
    else 0
  let promotion_score : Int :=
    move.promotion.elim 0 (fun pt => 9000 + PIECE_VALUES pt)
  let check_score : Int := if g.is_check (g.push p move) then 500 else 0
  capture_score + promotion_score + check_score

/-- Translation of `move_ordering` of `src/engine.py`: Python's
`moves.sort(key=key, reverse=True)` is a stable descending sort (ties keep
the enumeration order of `board.legal_moves`).  `List.mergeSort` with the
comparison below is exactly such a stable descending sort; a stable sort's
output is uniquely determined by the comparator and the input order, so the
choice of stable sorting algorithm is immaterial. -/
def move_ordering (g : Game) (p : Pos) : List Move :=
  (g.legal_moves p).mergeSort (fun a b => decide (move_key g p b ≤ move_key g p a))

theorem move_key_le_trans (g : Game) (p : Pos) :
    ∀ a b c : Move, decide (move_key g p b ≤ move_key g p a) = true →
      decide (move_key g p c ≤ move_key g p b) = true →
      decide (move_key g p c ≤ move_key g p a) = true := by
  intro a b c hab hbc
  exact decide_eq_true (le_trans (of_decide_eq_true hbc) (of_decide_eq_true hab))

theorem move_key_le_total (g : Game) (p : Pos) :
    ∀ a b : Move, (decide (move_key g p b ≤ move_key g p a)
      || decide (move_key g p a ≤ move_key g p b)) = true := by
  intro a b
  rcases le_total (move_key g p b) (move_key g p a) with h | h
  · simp [h]
  · simp [h]

theorem move_ordering_perm (g : Game) (p : Pos) :
    (move_ordering g p).Perm (g.legal_moves p) :=
  List.mergeSort_perm _ _

theorem move_ordering_pairwise (g : Game) (p : Pos) :
    (move_ordering g p).Pairwise (fun a b => move_key g p b ≤ move_key g p a) := by
  have h := @List.sorted_mergeSort Move (fun a b => decide (move_key g p b ≤ move_key g p a))
    (move_key_le_trans g p) (move_key_le_total g p) (g.legal_moves p)
  exact h.imp (fun hab => of_decide_eq_true hab)

theorem move_ordering_stable (g : Game) (p : Pos) (v : Int) :
    (move_ordering g p).filter (fun m => decide (move_key g p m = v))
      = (g.legal_moves p).filter (fun m => decide (move_key g p m = v)) := by
  set P : Move → Bool := fun m => decide (move_key g p m = v) with hP
  have hsub : ((g.legal_moves p).filter P).Sublist (move_ordering g p) := by
    apply List.sublist_mergeSort (move_key_le_trans g p) (move_key_le_total g p)
    · apply List.pairwise_of_forall_mem_list
      intro a ha b hb
      have hva : move_key g p a = v := of_decide_eq_true (List.mem_filter.mp ha).2
      have hvb : move_key g p b = v := of_decide_eq_true (List.mem_filter.mp hb).2
      exact decide_eq_true (le_of_eq (hvb.trans hva.symm))
    · exact List.filter_sublist _
  have hPP : (fun a => P a && P a) = P := by
    funext a
    cases P a <;> simp
  have hsub2 : ((g.legal_moves p).filter P).Sublist ((move_ordering g p).filter P) := by
    have h := List.Sublist.filter P hsub
    rwa [List.filter_filter, hPP] at h
  have hperm : ((move_ordering g p).filter P).Perm ((g.legal_moves p).filter P) :=
    (move_ordering_perm g p).filter P
  exact (hsub2.eq_of_length hperm.length_eq.symm).symm

/-- C8: for every position, `move_ordering` returns a permutation of the
currently legal moves arranged in descending order of the heuristic score,
and moves with equal heuristic scores keep the relative order in which the
adapter enumerated them (stable descending sort; the filter equation states
that, score class by score class, the output preserves the input order). -/
theorem move_ordering_is_stable_descending_sort (g : Game) (p : Pos) :
    (move_ordering g p).Perm (g.legal_moves p)
    ∧ (move_ordering g p).Pairwise (fun a b => move_key g p b ≤ move_key g p a)
    ∧ ∀ v : Int,
        (move_ordering g p).filter (fun m => decide (move_key g p m = v))
          = (g.legal_moves p).filter (fun m => decide (move_key g p m = v)) :=
  ⟨move_ordering_perm g p, move_ordering_pairwise g p, move_ordering_stable g p⟩

theorem PIECE_VALUES_nonneg (t : PieceType) : 0 ≤ PIECE_VALUES t := by
  cases t <;> decide

theorem PIECE_VALUES_le_queen (t : PieceType) : PIECE_VALUES t ≤ 900 := by
  cases t <;> decide

theorem move_key_capture_lower (g : Game) (p : Pos) (m : Move) (capturedPiece : Piece)
    (hcap : g.is_capture p m = true)
    (hto : g.piece_at p m.to_square = some capturedPiece) :
    9100 ≤ move_key g p m := by
  have h1 : 0 ≤ PIECE_VALUES capturedPiece.piece_type * 10 :=
    mul_nonneg (PIECE_VALUES_nonneg _) (by norm_num)
  unfold move_key
  simp only [hcap, hto, if_true, Option.elim_some]
  have h2 : -900 ≤ (g.piece_at p m.from_square).elim (0 : Int)
      (fun attackingPiece => -PIECE_VALUES attackingPiece.piece_type) := by
    cases hfa : g.piece_at p m.from_square with
    | none => norm_num
    | some a =>
        simpa using neg_le_neg (PIECE_VALUES_le_queen a.piece_type)
  have h3 : 0 ≤ m.promotion.elim (0 : Int) (fun pt => 9000 + PIECE_VALUES pt) := by
    cases hpr : m.promotion with
    | none => norm_num
    | some pt =>
        have := PIECE_VALUES_nonneg pt
        simpa using by linarith
  have h4 : 0 ≤ (if g.is_check (g.push p m) then (500 : Int) else 0) := by
    split <;> norm_num
  linarith

theorem move_key_quiet_upper (g : Game) (p : Pos) (m : Move)
    (hcap : g.is_capture p m = false) (hpr : m.promotion = none) :
    move_key g p m ≤ 500 := by
  unfold move_key
  simp only [hcap, hpr, Bool.false_eq_true, if_false, Option.elim_none]
  split <;> norm_num

/-- C3 (amended): for every capture move whose destination square is
occupied — which excludes en-passant captures, whose destination square is
empty — the heuristic score equals 10000 plus 10 times the captured piece's
base value minus the capturing piece's base value, plus the promotion and
check bonuses; and every such capture is ranked ahead of every non-capture
move that is not a promotion.  (As frozen, the claim fails twice: an
en-passant capture receives no capture bonus at all and can rank behind
quiet moves — see the counterexample — and a non-capture queen promotion
that gives check can outrank a queen-takes-pawn capture.) -/
theorem capture_move_key_and_ordering (g : Game) (p : Pos) (m : Move)
    (capturedPiece attackingPiece : Piece)
    (hcap : g.is_capture p m = true)
    (hto : g.piece_at p m.to_square = some capturedPiece)
    (hfrom : g.piece_at p m.from_square = some attackingPiece) :
    (move_key g p m
       = 10000 + PIECE_VALUES capturedPiece.piece_type * 10
           - PIECE_VALUES attackingPiece.piece_type
           + m.promotion.elim 0 (fun pt => 9000 + PIECE_VALUES pt)
           + (if g.is_check (g.push p m) then 500 else 0))
    ∧ (∀ l1 mq l2, move_ordering g p = l1 ++ mq :: l2 → m ∈ l2 →
         ¬(g.is_capture p mq = false ∧ mq.promotion = none)) := by
  constructor
  · unfold move_key
    simp only [hcap, hto, hfrom, if_true, Option.elim_some]
    ring
  · intro l1 mq l2 heq hm hq
    have hpw := move_ordering_pairwise g p
    rw [heq] at hpw
    have hrel : move_key g p m ≤ move_key g p mq := by
      rcases List.pairwise_append.mp hpw with ⟨_, hpw2, _⟩
      exact (List.pairwise_cons.mp hpw2).1 m hm
    have hlow := move_key_capture_lower g p m capturedPiece hcap hto
    have hupp := move_key_quiet_upper g p mq hq.1 hq.2
    linarith

unseal List.merge List.mergeSort

/-- En-passant capture e5xf6 in the position after 1.e4 d5 2.e5 f5 (FEN
`rnbqkbnr/ppppp1pp/8/3pPp2/8/8/PPPP1PPP/RNBQKBNR w KQkq f6 0 3` without the
d5 pawn): origin e5 = 36, destination f6 = 45. -/
def mEP : Move := ⟨36, 45, none⟩

/-- A quiet knight move Nb1–a3 (1 → 16) in the same position: no capture,
no promotion, no check. -/
def mQuiet : Move := ⟨1, 16, none⟩

/-- Adapter observations of the en-passant position above, restricted to the
two sample moves (the full legal-move list of the position only adds further
quiet moves, which are ranked exactly like `mQuiet`).  The destination
square f6 = 45 of the en-passant capture is empty — the captured pawn sits
on f5 = 37 — which is precisely what the move-ordering heuristic fails to
credit. -/
def G3_ep : Game where
  turn := fun _ => true
  is_game_over := fun _ => false
  legal_moves := fun _ => [mEP, mQuiet]
  push := fun p m => p + 1 + m.to_square
  is_capture := fun _ m => decide (m = mEP)
  piece_at := fun _ sq =>
    if sq = 36 then some ⟨PieceType.pawn, true⟩
    else if sq = 37 then some ⟨PieceType.pawn, false⟩
    else if sq = 1 then some ⟨PieceType.knight, true⟩
    else if sq = 4 then some ⟨PieceType.king, true⟩
    else if sq = 60 then some ⟨PieceType.king, false⟩
    else none
  is_check := fun _ => false
  is_insufficient_material := fun _ => false
  can_claim_draw := fun _ => false
  hash := fun p => p

/-- Counterexample to C3 as frozen: in the en-passant position `G3_ep`, the
legal capture move `mEP` (an en-passant capture, `is_capture` holds) scores
`-100`, not the claimed `10000 + 10 × 100 − 100 = 10900` — the capture term
is never added because the destination square is empty — and consequently
the capture is ranked behind the non-capture move `mQuiet` in the ordered
output. -/
theorem en_passant_capture_counterexample :
    G3_ep.is_capture 0 mEP = true
    ∧ move_key G3_ep 0 mEP = -100
    ∧ move_key G3_ep 0 mEP
        ≠ 10000 + PIECE_VALUES PieceType.pawn * 10 - PIECE_VALUES PieceType.pawn
    ∧ G3_ep.is_capture 0 mQuiet = false
    ∧ move_ordering G3_ep 0 = [mQuiet, mEP] := by
  refine ⟨by decide, by decide, by decide, by decide, by decide⟩

/-- Ordinary capture Qd1xd4 (3 → 27) of a black pawn on d4 by the white
queen, with a quiet knight move as the alternative. -/
def mCap : Move := ⟨3, 27, none⟩

/-- Adapter observations of a position with the occupied-destination capture
`mCap` and the quiet move `mQuiet` available. -/
def G3_cap : Game where
  turn := fun _ => true
  is_game_over := fun _ => false
  legal_moves := fun _ => [mQuiet, mCap]
  push := fun p m => p + 1 + m.to_square
  is_capture := fun _ m => decide (m = mCap)
  piece_at := fun _ sq =>
    if sq = 3 then some ⟨PieceType.queen, true⟩
    else if sq = 27 then some ⟨PieceType.pawn, false⟩
    else if sq = 1 then some ⟨PieceType.knight, true⟩
    else if sq = 4 then some ⟨PieceType.king, true⟩
    else if sq = 60 then some ⟨PieceType.king, false⟩
    else none
  is_check := fun _ => false
  is_insufficient_material := fun _ => false
  can_claim_draw := fun _ => false
  hash := fun p => p

theorem capture_move_key_and_ordering_witness :
    move_key G3_cap 0 mCap = 10100 := by
  have h := (capture_move_key_and_ordering G3_cap 0 mCap
    ⟨PieceType.pawn, false⟩ ⟨PieceType.queen, true⟩ (by decide) (by decide) (by decide)).1
  simpa [G3_cap, mCap, PIECE_VALUES] using h

/-- Extended score domain: integers together with the two infinities that
`math.inf` and `-math.inf` contribute (⊥ is `-math.inf`, ⊤ is `math.inf`).
Scores proper are always finite; the infinities occur only as initial values
of `best`, `alpha` and `beta`. -/
abbrev XInt : Type := WithBot (WithTop Int)

/-- Embedding of an integer score into the extended domain. -/
def XInt.ofInt (n : Int) : XInt := ((n : WithTop Int) : XInt)

/-- Python `int(x)` on a score: the identity on finite scores, raising
`OverflowError` (here `none`) on either infinity. -/
def XInt.toInt (x : XInt) : Option Int :=
  WithBot.recBotCoe none (WithTop.recTopCoe none some) x

theorem XInt.toInt_ofInt (n : Int) : (XInt.ofInt n).toInt = some n := rfl

theorem XInt.ofInt_le_ofInt {m n : Int} : XInt.ofInt m ≤ XInt.ofInt n ↔ m ≤ n := by
  simp [XInt.ofInt]

theorem XInt.bot_lt_ofInt (n : Int) : (⊥ : XInt) < XInt.ofInt n :=
  WithBot.bot_lt_coe _

theorem XInt.ofInt_lt_top (n : Int) : XInt.ofInt n < (⊤ : XInt) := by
  simp only [XInt.ofInt]
  exact WithBot.coe_lt_coe.mpr (WithTop.coe_lt_top n)

/-- White (maximizing) loop of `MiniMaxEngine.minimax` of `src/engine.py`
with the transposition cache removed, at the value level: `f` is the
recursive search of a child at depth `depth - 1`, `best` and `alpha` are the
running values, and the loop stops on `beta <= alpha` after updating, exactly
as the Python loop body does. -/
def abLoopW (f : Pos → XInt → XInt → XInt) (g : Game) (p : Pos) :
    List Move → XInt → XInt → XInt → XInt
  | [], best, _, _ => best
  | mv :: rest, best, alpha, beta =>
      let val := f (g.push p mv) alpha beta
      let best2 := max best val
      let alpha2 := max alpha best2
      if beta ≤ alpha2 then best2
      else abLoopW f g p rest best2 alpha2 beta

/-- Black (minimizing) loop of `MiniMaxEngine.minimax` with the cache
removed, dual to `abLoopW`. -/
def abLoopB (f : Pos → XInt → XInt → XInt) (g : Game) (p : Pos) :
    List Move → XInt → XInt → XInt → XInt
  | [], best, _, _ => best
  | mv :: rest, best, alpha, beta =>
      let val := f (g.push p mv) alpha beta
      let best2 := min best val
      let beta2 := min beta best2
      if beta2 ≤ alpha then best2
      else abLoopB f g p rest best2 alpha beta2

/-- Alpha-beta minimax without the transposition cache: the body of
`MiniMaxEngine.minimax` with the two cache lines (lookup and store) removed
and the node counter elided (it does not affect the returned value).  The
returned value is the Python variable `best` before the final `int(best)`
cast; on the hypothesis domain of the theorems below `best` is always
finite, where the cast is the identity. -/
def minimaxNoTT (g : Game) : Nat → Pos → XInt → XInt → XInt
  | 0, p, _, _ => XInt.ofInt (evaluate g p)
  | d + 1, p, alpha, beta =>
      if g.is_game_over p then XInt.ofInt (evaluate g p)
      else if g.turn p then
        abLoopW (fun q a b => minimaxNoTT g d q a b) g p (move_ordering g p) ⊥ alpha beta
      else
        abLoopB (fun q a b => minimaxNoTT g d q a b) g p (move_ordering g p) ⊤ alpha beta

/-- Modelled from the spec: the reference value of a "plain, non-pruned,
cache-free minimax search of the same position to the same depth using the
same evaluate function" (testable property 1 of the design document).  White
maximizes over all legal moves, Black minimizes; the fold order is the
adapter enumeration order, which is irrelevant to the value. -/
def plainMinimax (g : Game) : Nat → Pos → XInt
  | 0, p => XInt.ofInt (evaluate g p)
  | d + 1, p =>
      if g.is_game_over p then XInt.ofInt (evaluate g p)
      else if g.turn p then
        (g.legal_moves p).foldl (fun acc mv => max acc (plainMinimax g d (g.push p mv))) ⊥
      else
        (g.legal_moves p).foldl (fun acc mv => min acc (plainMinimax g d (g.push p mv))) ⊤

theorem foldl_max_init {β : Type} (f : β → XInt) (l : List β) :
    ∀ i : XInt, l.foldl (fun acc x => max acc (f x)) i
      = max i (l.foldl (fun acc x => max acc (f x)) ⊥) := by
  induction l with
  | nil =>
      intro i
      simp only [List.foldl_nil]
      exact (max_eq_left (bot_le : (⊥ : XInt) ≤ i)).symm
  | cons m rest ih =>
      intro i
      simp only [List.foldl_cons]
      rw [ih (max i (f m)), ih (max ⊥ (f m)), max_eq_right (bot_le : (⊥ : XInt) ≤ f m),
        max_assoc]

theorem foldl_min_init {β : Type} (f : β → XInt) (l : List β) :
    ∀ i : XInt, l.foldl (fun acc x => min acc (f x)) i
      = min i (l.foldl (fun acc x => min acc (f x)) ⊤) := by
  induction l with
  | nil =>
      intro i
      simp only [List.foldl_nil]
      exact (min_eq_left (le_top : i ≤ (⊤ : XInt))).symm
  | cons m rest ih =>
      intro i
      simp only [List.foldl_cons]
      rw [ih (min i (f m)), ih (min ⊤ (f m)), min_eq_right (le_top : f m ≤ (⊤ : XInt)),
        min_assoc]

theorem foldl_max_perm {β : Type} (f : β → XInt) {l1 l2 : List β} (h : l1.Perm l2)
    (i : XInt) :
    l1.foldl (fun acc x => max acc (f x)) i = l2.foldl (fun acc x => max acc (f x)) i := by
  haveI : RightCommutative (fun (acc : XInt) (x : β) => max acc (f x)) :=
    ⟨fun b a1 a2 => by rw [max_assoc, max_comm (f a1) (f a2), ← max_assoc]⟩
  exact h.foldl_eq i

theorem foldl_min_perm {β : Type} (f : β → XInt) {l1 l2 : List β} (h : l1.Perm l2)
    (i : XInt) :
    l1.foldl (fun acc x => min acc (f x)) i = l2.foldl (fun acc x => min acc (f x)) i := by
  haveI : RightCommutative (fun (acc : XInt) (x : β) => min acc (f x)) :=
    ⟨fun b a1 a2 => by rw [min_assoc, min_comm (f a1) (f a2), ← min_assoc]⟩
  exact h.foldl_eq i

theorem abLoopW_le (g : Game) (f : Pos → XInt → XInt → XInt) (pv : Pos → XInt)
    (hf : ∀ q a b, a < b → f q a b ≤ max a (pv q)) (p : Pos) (beta : XInt) :
    ∀ (ms : List Move) (best alpha : XInt), alpha < beta →
      abLoopW f g p ms best alpha beta
        ≤ max best (max alpha
            (ms.foldl (fun acc mv => max acc (pv (g.push p mv))) ⊥)) := by
  intro ms
  induction ms with
  | nil =>
      intro best alpha _
      simp only [abLoopW, List.foldl_nil]
      exact le_max_left best (max alpha (⊥ : XInt))
  | cons mv rest ih =>
      intro best alpha hab
      have hval : f (g.push p mv) alpha beta ≤ max alpha (pv (g.push p mv)) := hf _ _ _ hab
      simp only [abLoopW, List.foldl_cons]
      rw [foldl_max_init _ rest (max ⊥ (pv (g.push p mv))),
        max_eq_right (bot_le : (⊥ : XInt) ≤ pv (g.push p mv))]
      set c := pv (g.push p mv) with hc
      set v := f (g.push p mv) alpha beta with hv
      set F := rest.foldl (fun acc m2 => max acc (pv (g.push p m2))) ⊥ with hF
      set M := max best (max alpha (max c F)) with hM
      have hbestM : best ≤ M := le_max_left _ _
      have hvalM : v ≤ M := by
        refine le_trans hval (le_trans (max_le_max (le_refl alpha) (le_max_left c F)) ?_)
        exact le_max_right best _
      have hb2 : max best v ≤ M := max_le hbestM hvalM
      have halphaM : alpha ≤ M :=
        le_trans (le_max_left alpha (max c F)) (le_max_right best _)
      have hFM : F ≤ M :=
        le_trans (le_max_right c F)
          (le_trans (le_max_right alpha _) (le_max_right best _))
      split
      · exact hb2
      · rename_i hcut
        refine le_trans (ih (max best v) (max alpha (max best v)) (not_le.mp hcut)) ?_
        exact max_le hb2 (max_le (max_le halphaM hb2) hFM)

theorem abLoopW_ge (g : Game) (f : Pos → XInt → XInt → XInt) (pv : Pos → XInt)
    (hf : ∀ q a b, a < b → min b (pv q) ≤ f q a b) (p : Pos) (beta : XInt) :
    ∀ (ms : List Move) (best alpha : XInt), alpha < beta →
      min beta (max best (ms.foldl (fun acc mv => max acc (pv (g.push p mv))) ⊥))
        ≤ abLoopW f g p ms best alpha beta := by
  intro ms
  induction ms with
  | nil =>
      intro best alpha _
      simp only [abLoopW, List.foldl_nil]
      exact le_trans (min_le_right beta (max best (⊥ : XInt))) (le_of_eq (max_eq_left bot_le))
  | cons mv rest ih =>
      intro best alpha hab
      have hval : min beta (pv (g.push p mv)) ≤ f (g.push p mv) alpha beta := hf _ _ _ hab
      simp only [abLoopW, List.foldl_cons]
      rw [foldl_max_init _ rest (max ⊥ (pv (g.push p mv))),
        max_eq_right (bot_le : (⊥ : XInt) ≤ pv (g.push p mv))]
      set c := pv (g.push p mv) with hc
      set v := f (g.push p mv) alpha beta with hv
      set F := rest.foldl (fun acc m2 => max acc (pv (g.push p m2))) ⊥ with hF
      split
      · rename_i hcut
        have hbeta : beta ≤ max best v := by
          rcases le_max_iff.mp hcut with h | h
          · exact absurd h (not_le_of_lt hab)
          · exact h
        exact le_trans (min_le_left _ _) hbeta
      · rename_i hcut
        rcases le_total c beta with hcb | hbc
        · have hvc : c ≤ v := by
            have h0 := hval
            rwa [min_eq_right hcb] at h0
          refine le_trans (min_le_min (le_refl beta) ?_)
            (ih (max best v) (max alpha (max best v)) (not_le.mp hcut))
          refine max_le (le_trans (le_max_left best v) (le_max_left _ F)) ?_
          exact max_le
            (le_trans (le_trans hvc (le_max_right best v)) (le_max_left _ F))
            (le_max_right _ F)
        · exfalso
          have hbv : beta ≤ v := by
            have h0 := hval
            rwa [min_eq_left hbc] at h0
          exact hcut (le_trans hbv (le_trans (le_max_right best v) (le_max_right alpha _)))

theorem abLoopB_ge (g : Game) (f : Pos → XInt → XInt → XInt) (pv : Pos → XInt)
    (hf : ∀ q a b, a < b → min b (pv q) ≤ f q a b) (p : Pos) (alpha : XInt) :
    ∀ (ms : List Move) (best beta : XInt), alpha < beta →
      min best (min beta
          (ms.foldl (fun acc mv => min acc (pv (g.push p mv))) ⊤))
        ≤ abLoopB f g p ms best alpha beta := by
  intro ms
  induction ms with
  | nil =>
      intro best beta _
      simp only [abLoopB, List.foldl_nil]
      exact min_le_left best (min beta (⊤ : XInt))
  | cons mv rest ih =>
      intro best beta hab
      have hval : min beta (pv (g.push p mv)) ≤ f (g.push p mv) alpha beta := hf _ _ _ hab
      simp only [abLoopB, List.foldl_cons]
      rw [foldl_min_init _ rest (min ⊤ (pv (g.push p mv))),
        min_eq_right (le_top : pv (g.push p mv) ≤ (⊤ : XInt))]
      set c := pv (g.push p mv) with hc
      set v := f (g.push p mv) alpha beta with hv
      set F := rest.foldl (fun acc m2 => min acc (pv (g.push p m2))) ⊤ with hF
      set M := min best (min beta (min c F)) with hM
      have hbestM : M ≤ best := min_le_left _ _
      have hvalM : M ≤ v := by
        refine le_trans ?_ hval
        refine le_trans (min_le_right best _) ?_
        exact min_le_min (le_refl beta) (min_le_left c F)
      have hb2 : M ≤ min best v := le_min hbestM hvalM
      have hbetaM : M ≤ beta :=
        le_trans (min_le_right best _) (min_le_left beta (min c F))
      have hFM : M ≤ F :=
        le_trans (min_le_right best _)
          (le_trans (min_le_right beta _) (min_le_right c F))
      split
      · exact hb2
      · rename_i hcut
        refine le_trans ?_ (ih (min best v) (min beta (min best v)) (not_le.mp hcut))
        exact le_min hb2 (le_min (le_min hbetaM hb2) hFM)

theorem abLoopB_le (g : Game) (f : Pos → XInt → XInt → XInt) (pv : Pos → XInt)
    (hf : ∀ q a b, a < b → f q a b ≤ max a (pv q)) (p : Pos) (alpha : XInt) :
    ∀ (ms : List Move) (best beta : XInt), alpha < beta →
      abLoopB f g p ms best alpha beta
        ≤ max alpha (min best
            (ms.foldl (fun acc mv => min acc (pv (g.push p mv))) ⊤)) := by
  intro ms
  induction ms with
  | nil =>
      intro best beta _
      simp only [abLoopB, List.foldl_nil]
      exact le_trans (le_min (le_refl best) (le_top : best ≤ (⊤ : XInt)))
        (le_max_right alpha (min best ⊤))
  | cons mv rest ih =>
      intro best beta hab
      have hval : f (g.push p mv) alpha beta ≤ max alpha (pv (g.push p mv)) := hf _ _ _ hab
      simp only [abLoopB, List.foldl_cons]
      rw [foldl_min_init _ rest (min ⊤ (pv (g.push p mv))),
        min_eq_right (le_top : pv (g.push p mv) ≤ (⊤ : XInt))]
      set c := pv (g.push p mv) with hc
      set v := f (g.push p mv) alpha beta with hv
      set F := rest.foldl (fun acc m2 => min acc (pv (g.push p m2))) ⊤ with hF
      split
      · rename_i hcut
        have halpha : min best v ≤ alpha := by
          rcases min_le_iff.mp hcut with h | h
          · exact absurd h (not_le_of_lt hab)
          · exact h
        exact le_trans halpha (le_max_left _ _)
      · rename_i hcut
        rcases le_total alpha c with hac | hca
        · have hvc : v ≤ c := by
            have h0 := hval
            rwa [max_eq_right hac] at h0
          refine le_trans
            (ih (min best v) (min beta (min best v)) (not_le.mp hcut)) ?_
          refine max_le_max (le_refl alpha) ?_
          refine le_min (le_trans (min_le_left _ F) (min_le_left best v)) ?_
          exact le_min
            (le_trans (min_le_left _ F) (le_trans (min_le_right best v) hvc))
            (min_le_right _ F)
        · exfalso
          have hva : v ≤ alpha := by
            have h0 := hval
            rwa [max_eq_left hca] at h0
          exact hcut
            (le_trans (min_le_right beta (min best v)) (le_trans (min_le_right best v) hva))

theorem minimaxNoTT_bounds (g : Game) :
    ∀ (d : Nat) (p : Pos) (alpha beta : XInt), alpha < beta →
      minimaxNoTT g d p alpha beta ≤ max alpha (plainMinimax g d p)
      ∧ min beta (plainMinimax g d p) ≤ minimaxNoTT g d p alpha beta := by
  intro d
  induction d with
  | zero =>
      intro p alpha beta _
      exact ⟨le_max_right _ _, min_le_right _ _⟩
  | succ d ih =>
      intro p alpha beta hab
      have hfU : ∀ q a b, a < b → minimaxNoTT g d q a b ≤ max a (plainMinimax g d q) :=
        fun q a b h => (ih q a b h).1
      have hfL : ∀ q a b, a < b → min b (plainMinimax g d q) ≤ minimaxNoTT g d q a b :=
        fun q a b h => (ih q a b h).2
      cases hover : g.is_game_over p with
      | true =>
          simp only [minimaxNoTT, plainMinimax, hover, if_true]
          exact ⟨le_max_right _ _, min_le_right _ _⟩
      | false =>
          cases hturn : g.turn p with
          | true =>
              simp only [minimaxNoTT, plainMinimax, hover, hturn, Bool.false_eq_true,
                if_false, if_true]
              rw [← foldl_max_perm (fun mv => plainMinimax g d (g.push p mv))
                (move_ordering_perm g p) ⊥]
              constructor
              · have h := abLoopW_le g (fun q a b => minimaxNoTT g d q a b)
                  (fun q => plainMinimax g d q) hfU p beta (move_ordering g p) ⊥ alpha hab
                rwa [max_eq_right (bot_le : (⊥ : XInt) ≤ _)] at h
              · have h := abLoopW_ge g (fun q a b => minimaxNoTT g d q a b)
                  (fun q => plainMinimax g d q) hfL p beta (move_ordering g p) ⊥ alpha hab
                rwa [max_eq_right (bot_le : (⊥ : XInt) ≤ _)] at h
          | false =>
              simp only [minimaxNoTT, plainMinimax, hover, hturn, Bool.false_eq_true,
                if_false]
              rw [← foldl_min_perm (fun mv => plainMinimax g d (g.push p mv))
                (move_ordering_perm g p) ⊤]
              constructor
              · have h := abLoopB_le g (fun q a b => minimaxNoTT g d q a b)
                  (fun q => plainMinimax g d q) hfU p alpha (move_ordering g p) ⊤ beta hab
                rwa [min_eq_right (le_top : _ ≤ (⊤ : XInt))] at h
              · have h := abLoopB_ge g (fun q a b => minimaxNoTT g d q a b)
                  (fun q => plainMinimax g d q) hfL p alpha (move_ordering g p) ⊤ beta hab
                rwa [min_eq_right (le_top : _ ≤ (⊤ : XInt))] at h

/-- C1 (amended): pruning alone never changes the returned score — for every
position and every depth, the engine's minimax with the transposition cache
removed, searched with the full window `(-inf, +inf)`, returns exactly the
score of the plain, non-pruned, cache-free minimax search of the same
position to the same depth with the same evaluate function.  (As frozen,
with the cache consulted and populated, the claim fails: the cache stores
alpha-beta cutoff bounds as if they were exact scores and serves them at the
same (position, depth, side) key under wider windows — see
`minimax_cache_pollution_counterexample`.) -/
theorem alpha_beta_without_cache_eq_plain (g : Game) (d : Nat) (p : Pos) :
    minimaxNoTT g d p ⊥ ⊤ = plainMinimax g d p := by
  have h := minimaxNoTT_bounds g d p ⊥ ⊤ bot_lt_top
  refine le_antisymm ?_ ?_
  · have h1 := h.1
    rwa [max_eq_right (bot_le : (⊥ : XInt) ≤ _)] at h1
  · have h2 := h.2
    rwa [min_eq_right (le_top : _ ≤ (⊤ : XInt))] at h2

/-- CacheKey of the design document: (position identity, remaining search
depth, side to move) — `key = (self._hash(board), depth, board.turn)`. -/
abbrev CacheKey : Type := Nat × Nat × Bool

/-- The transposition cache `self.tt`, observed as the lookup function of
the Python dict. -/
def Cache : Type := CacheKey → Option Int

/-- The empty cache `{}` a fresh `MiniMaxEngine.__init__` creates. -/
def Cache.empty : Cache := fun _ => none

/-- Python dict assignment `self.tt[key] = v`. -/
def Cache.insert (c : Cache) (k : CacheKey) (v : Int) : Cache :=
  fun k2 => if k2 = k then some v else c k2

theorem Cache.insert_same (c : Cache) (k : CacheKey) (v : Int) :
    c.insert k v k = some v := by
  simp [Cache.insert]

theorem Cache.insert_other (c : Cache) (k k2 : CacheKey) (v : Int) (h : k2 ≠ k) :
    c.insert k v k2 = c k2 := by
  simp [Cache.insert, h]

/-- Mutable state of one `MiniMaxEngine` instance: the transposition cache
and the diagnostic node counter. -/
structure EngState : Type where
  tt : Cache
  nodes : Nat

/-- The mutable python-chess board: a stack of positions whose head is the
current position; `board.push` pushes the successor position, `board.pop`
drops the head and restores the previous one. -/
abbrev BoardStack : Type := List Pos

/-- The current position of the board. -/
def cur (bd : BoardStack) : Pos := bd.headD 0

/-- The effect of `board.push(move)` on the board stack. -/
def push_stk (g : Game) (bd : BoardStack) (m : Move) : BoardStack :=
  g.push (cur bd) m :: bd

/-- The effect of `board.pop()` on the board stack. -/
def pop_stk (bd : BoardStack) : BoardStack := bd.tail

/-- Stack-threaded translation of the `key` closure inside `move_ordering`:
capture and promotion terms read the board before the probe; the check bonus
performs `board.push(move)`, queries `board.is_check()` on the mutated
board, then `board.pop()`.  Returns the score together with the board stack
left behind by the probe. -/
def key_stk (g : Game) (bd : BoardStack) (move : Move) : Int × BoardStack :=
  let capture_score : Int :=
    if g.is_capture (cur bd) move then
      (g.piece_at (cur bd) move.to_square).elim 0
        (fun capturedPiece => 10000 + PIECE_VALUES capturedPiece.piece_type * 10)
      + (g.piece_at (cur bd) move.from_square).elim 0
        (fun attackingPiece => -PIECE_VALUES attackingPiece.piece_type)
    else 0
  let promotion_score : Int :=
    move.promotion.elim 0 (fun pt => 9000 + PIECE_VALUES pt)
  let bd1 := push_stk g bd move
  let chk := g.is_check (cur bd1)
  let bd2 := pop_stk bd1
  (capture_score + promotion_score + (if chk then 500 else 0), bd2)

/-- The probe of `key_stk` computes exactly `move_key` on the current
position and hands the board stack back unchanged (pop after push restores
the stack on the nose). -/
theorem key_stk_eq (g : Game) (bd : BoardStack) (m : Move) :
    key_stk g bd m = (move_key g (cur bd) m, bd) := rfl

/-- Stack-threaded `move_ordering`: Python's sort evaluates `key` once per
move — each call restoring the board stack, by `key_stk_eq` — and sorts
descending; the board stack is handed back unchanged. -/
def move_ordering_stk (g : Game) (bd : BoardStack) : List Move × BoardStack :=
  ((g.legal_moves (cur bd)).mergeSort
      (fun a b => decide ((key_stk g bd b).1 ≤ (key_stk g bd a).1)),
   bd)

theorem move_ordering_stk_eq (g : Game) (bd : BoardStack) :
    move_ordering_stk g bd = (move_ordering g (cur bd), bd) := rfl

/-- White loop of the full `MiniMaxEngine.minimax`, threading the board
stack and the engine state through the recursive child searches (`f` is the
depth-decremented recursive call); `board.pop()` runs before the cutoff test,
exactly as in the Python loop body. -/
def mmLoopW
    (f : BoardStack → XInt → XInt → EngState → Option (Int × BoardStack × EngState))
    (g : Game) : List Move → BoardStack → XInt → XInt → XInt → EngState →
    Option (XInt × BoardStack × EngState)
  | [], bd, best, _, _, s => some (best, bd, s)
  | mv :: rest, bd, best, alpha, beta, s =>
      match f (push_stk g bd mv) alpha beta s with
      | none => none
      | some (val, bd1, s1) =>
          let bd2 := pop_stk bd1
          let best2 := max best (XInt.ofInt val)
          let alpha2 := max alpha best2
          if beta ≤ alpha2 then some (best2, bd2, s1)
          else mmLoopW f g rest bd2 best2 alpha2 beta s1

/-- Black loop of the full `MiniMaxEngine.minimax`, dual to `mmLoopW`. -/
def mmLoopB
    (f : BoardStack → XInt → XInt → EngState → Option (Int × BoardStack × EngState))
    (g : Game) : List Move → BoardStack → XInt → XInt → XInt → EngState →
    Option (XInt × BoardStack × EngState)
  | [], bd, best, _, _, s => some (best, bd, s)
  | mv :: rest, bd, best, alpha, beta, s =>
      match f (push_stk g bd mv) alpha beta s with
      | none => none
      | some (val, bd1, s1) =>
          let bd2 := pop_stk bd1
          let best2 := min best (XInt.ofInt val)
          let beta2 := min beta best2
          if beta2 ≤ alpha then some (best2, bd2, s1)
          else mmLoopB f g rest bd2 best2 alpha beta2 s1

/-- Full translation of `MiniMaxEngine.minimax` of `src/engine.py`: node
counter increment, cache key and lookup, base case (depth 0 or game over)
with cache store, the two alpha-beta loops, and the final `int(best)` cast
with cache store.  `none` marks a raised `OverflowError` from `int(best)` on
an infinite `best`, which requires a non-terminal position with no legal
moves (impossible in chess).  The prologue is duplicated across the two
depth patterns solely because Lean recursion is structural in the depth; for
`d = 0` the Python test `depth == 0` short-circuits identically. -/
def minimaxFull (g : Game) : Nat → BoardStack → XInt → XInt → EngState →
    Option (Int × BoardStack × EngState)
  | 0, bd, _, _, s =>
      let s1 : EngState := ⟨s.tt, s.nodes + 1⟩
      let key : CacheKey := (g.hash (cur bd), 0, g.turn (cur bd))
      match s1.tt key with
      | some v => some (v, bd, s1)
      | none =>
          let val := evaluate g (cur bd)
          some (val, bd, ⟨s1.tt.insert key val, s1.nodes⟩)
  | d + 1, bd, alpha, beta, s =>
      let s1 : EngState := ⟨s.tt, s.nodes + 1⟩
      let key : CacheKey := (g.hash (cur bd), d + 1, g.turn (cur bd))
      match s1.tt key with
      | some v => some (v, bd, s1)
      | none =>
          if g.is_game_over (cur bd) then
            let val := evaluate g (cur bd)
            some (val, bd, ⟨s1.tt.insert key val, s1.nodes⟩)
          else
            let ms := (move_ordering_stk g bd).1
            let res :=
              if g.turn (cur bd) then
                mmLoopW (fun bd2 a b s2 => minimaxFull g d bd2 a b s2) g ms bd ⊥ alpha beta s1
              else
                mmLoopB (fun bd2 a b s2 => minimaxFull g d bd2 a b s2) g ms bd ⊤ alpha beta s1
            match res with
            | none => none
            | some (best, bd3, s3) =>
                match best.toInt with
                | some n => some (n, bd3, ⟨s3.tt.insert key n, s3.nodes⟩)
                | none => none

/-- The output contract `SearchResult` of `src/engine.py`. -/
structure SearchResult : Type where
  score : Int
  move : Option Move
deriving DecidableEq, Repr

/-- White root loop of `MiniMaxEngine.best_move`: each root move is searched
with the fresh full window, and the strictly best score wins (first-found
wins ties). -/
def bmLoopW (f : BoardStack → EngState → Option (Int × BoardStack × EngState))
    (g : Game) : List Move → BoardStack → XInt → Option Move → EngState →
    Option ((XInt × Option Move) × BoardStack × EngState)
  | [], bd, best_score, best_mv, s => some ((best_score, best_mv), bd, s)
  | mv :: rest, bd, best_score, best_mv, s =>
      match f (push_stk g bd mv) s with
      | none => none
      | some (score, bd1, s1) =>
          let bd2 := pop_stk bd1
          if best_score < XInt.ofInt score then
            bmLoopW f g rest bd2 (XInt.ofInt score) (some mv) s1
          else
            bmLoopW f g rest bd2 best_score best_mv s1

/-- Black root loop of `MiniMaxEngine.best_move`, dual to `bmLoopW`. -/
def bmLoopB (f : BoardStack → EngState → Option (Int × BoardStack × EngState))
    (g : Game) : List Move → BoardStack → XInt → Option Move → EngState →
    Option ((XInt × Option Move) × BoardStack × EngState)
  | [], bd, best_score, best_mv, s => some ((best_score, best_mv), bd, s)
  | mv :: rest, bd, best_score, best_mv, s =>
      match f (push_stk g bd mv) s with
      | none => none
      | some (score, bd1, s1) =>
          let bd2 := pop_stk bd1
          if XInt.ofInt score < best_score then
            bmLoopB f g rest bd2 (XInt.ofInt score) (some mv) s1
          else
            bmLoopB f g rest bd2 best_score best_mv s1

/-- Full translation of `MiniMaxEngine.best_move` of `src/engine.py`: resets
the node counter, orders the root moves, searches each at `depth - 1` with
the full window, and finally builds `SearchResult(score=int(best_score),
move=best_move)`.  When no legal move exists the loop never runs,
`best_score` is still infinite, and `int(best_score)` raises
`OverflowError` — modelled as `none`.  Faithful for `depth ≥ 1`; the design
document places `depth ≤ 0` outside the caller contract (Python would pass
a negative depth where `Nat` subtraction cannot follow). -/
def bestMoveFull (g : Game) (bd : BoardStack) (depth : Nat) (s : EngState) :
    Option (SearchResult × BoardStack × EngState) :=
  let s0 : EngState := ⟨s.tt, 0⟩
  let ms := (move_ordering_stk g bd).1
  let res :=
    if g.turn (cur bd) then
      bmLoopW (fun bd2 s2 => minimaxFull g (depth - 1) bd2 ⊥ ⊤ s2) g ms bd ⊥ none s0
    else
      bmLoopB (fun bd2 s2 => minimaxFull g (depth - 1) bd2 ⊥ ⊤ s2) g ms bd ⊤ none s0
  match res with
  | none => none
  | some ((best_score, best_mv), bd1, s1) =>
      match best_score.toInt with
      | some n => some (⟨n, best_mv⟩, bd1, s1)
      | none => none

/-- Helper for the abstract counterexample games: a move whose destination
encodes the successor position. -/
def tmv (t : Nat) : Move := ⟨0, t, none⟩

/-- Abstract game with a same-depth transposition, realizing the cache
pollution of `minimax`.  Positions: 0 is the root (White, searched to depth
3); 1 and 2 are Black replies; 3 and 4 are White positions at remaining
depth 1, position 4 reachable both from 1 and from 2 (a transposition);
5, 6, 7 are Black leaf positions whose evaluations are `-mobility`:
-10, -10 and -1.  Searching the root: inside the subtree of 1, position 4
is cut off after its first child (window narrowed by the sibling 3) and the
bound -10 is stored under key (4, 1, White) although the true value of 4 is
-1; the subtree of 2 then reads the polluted entry, and the root returns
-10 while plain minimax returns -1. -/
def G1 : Game where
  turn := fun p => p = 0 || p = 3 || p = 4
  is_game_over := fun _ => false
  legal_moves := fun p =>
    if p = 0 then [tmv 1, tmv 2]
    else if p = 1 then [tmv 3, tmv 4]
    else if p = 2 then [tmv 4]
    else if p = 3 then [tmv 5]
    else if p = 4 then [tmv 6, tmv 7]
    else if p = 5 then [tmv 8, tmv 9, tmv 10, tmv 11, tmv 12, tmv 13, tmv 14, tmv 15, tmv 16, tmv 17]
    else if p = 6 then [tmv 8, tmv 9, tmv 10, tmv 11, tmv 12, tmv 13, tmv 14, tmv 15, tmv 16, tmv 17]
    else if p = 7 then [tmv 8]
    else []
  push := fun _ m => m.to_square
  is_capture := fun _ _ => false
  piece_at := fun _ _ => none
  is_check := fun _ => false
  is_insufficient_material := fun _ => false
  can_claim_draw := fun _ => false
  hash := fun p => p

/-- Counterexample to C1 as frozen: on the transposition game `G1`, a single
`minimax` call from a fresh engine (empty cache, node counter 0) with the
full window returns -10 at depth 3, while the plain non-pruned cache-free
minimax score is -1 — and alpha-beta pruning alone (cache removed) also
returns -1.  Consulting and populating the transposition cache changes the
returned score, refuting the claimed equivalence. -/
theorem minimax_cache_pollution_counterexample :
    (minimaxFull G1 3 [0] ⊥ ⊤ ⟨Cache.empty, 0⟩).map (fun r => r.1) = some (-10)
    ∧ plainMinimax G1 3 0 = XInt.ofInt (-1)
    ∧ minimaxNoTT G1 3 0 ⊥ ⊤ = XInt.ofInt (-1)
    ∧ (-10 : Int) ≠ -1 := by
  refine ⟨by decide, by decide, by decide, by decide⟩

/-- C4 (amended): a successful `minimax` call always leaves its own CacheKey
(position identity, depth, side to move) mapped to the score it returned;
and whenever the key is already present, a `minimax` call returns exactly
the stored score and short-circuits all further work below the node — no
recursion, no cache write, the board untouched — while the node counter,
which is incremented on entry BEFORE the cache lookup, increases by exactly
one on the re-query (the claim's "the node counter does not increase" fails;
see `minimax_node_counter_counterexample`). -/
theorem minimax_cache_hit_spec (g : Game) (d : Nat) (bd : BoardStack)
    (alpha beta : XInt) (s : EngState) :
    (∀ n bd2 s2, minimaxFull g d bd alpha beta s = some (n, bd2, s2) →
        s2.tt (g.hash (cur bd), d, g.turn (cur bd)) = some n)
    ∧ (∀ v, s.tt (g.hash (cur bd), d, g.turn (cur bd)) = some v →
        minimaxFull g d bd alpha beta s = some (v, bd, ⟨s.tt, s.nodes + 1⟩)) := by
  constructor
  · intro n bd2 s2 h
    cases d with
    | zero =>
        simp only [minimaxFull] at h
        split at h
        · rename_i v hv
          simp only [Option.some.injEq, Prod.mk.injEq] at h
          obtain ⟨h1, _, h3⟩ := h
          rw [← h3, ← h1]
          exact hv
        · simp only [Option.some.injEq, Prod.mk.injEq] at h
          obtain ⟨h1, _, h3⟩ := h
          rw [← h3, ← h1]
          exact Cache.insert_same _ _ _
    | succ d =>
        simp only [minimaxFull] at h
        split at h
        · rename_i v hv
          simp only [Option.some.injEq, Prod.mk.injEq] at h
          obtain ⟨h1, _, h3⟩ := h
          rw [← h3, ← h1]
          exact hv
        · split at h
          · simp only [Option.some.injEq, Prod.mk.injEq] at h
            obtain ⟨h1, _, h3⟩ := h
            rw [← h3, ← h1]
            exact Cache.insert_same _ _ _
          · split at h
            · exact absurd h (by simp)
            · split at h
              · rename_i best bd3 s3 hres n2 hn2
                simp only [Option.some.injEq, Prod.mk.injEq] at h
                obtain ⟨h1, _, h3⟩ := h
                rw [← h3, ← h1]
                exact Cache.insert_same _ _ _
              · exact absurd h (by simp)
  · intro v hv
    cases d with
    | zero => simp [minimaxFull, hv]
    | succ d => simp [minimaxFull, hv]

/-- Trivial terminal game for the cache-hit scenarios: one position, White
to move, checkmated (evaluation -10000). -/
def G4 : Game where
  turn := fun _ => true
  is_game_over := fun _ => true
  legal_moves := fun _ => []
  push := fun p _ => p
  is_capture := fun _ _ => false
  piece_at := fun _ _ => none
  is_check := fun _ => true
  is_insufficient_material := fun _ => false
  can_claim_draw := fun _ => false
  hash := fun p => p

/-- Counterexample to C4 as frozen: priming the cache with a `minimax` call
on `G4` at depth 1 leaves the node counter at 1 and stores -10000 under the
key (0, 1, White); the re-query on the resulting engine state returns the
stored -10000 but the node counter increases from 1 to 2 — `self.nodes += 1`
runs before the cache lookup, so the counter does increase on a re-query. -/
theorem minimax_node_counter_counterexample :
    minimaxFull G4 1 [0] ⊥ ⊤ ⟨Cache.empty, 0⟩
      = some (-10000, [0], ⟨Cache.empty.insert (0, 1, true) (-10000), 1⟩)
    ∧ (minimaxFull G4 1 [0] ⊥ ⊤ ⟨Cache.empty.insert (0, 1, true) (-10000), 1⟩).map
        (fun r => (r.1, r.2.2.nodes)) = some (-10000, 2)
    ∧ (1 : Nat) < 2 := by
  refine ⟨rfl, by decide, by decide⟩

theorem minimax_cache_hit_spec_witness :
    minimaxFull G4 1 [0] ⊥ ⊤ ⟨Cache.empty.insert (0, 1, true) (-10000), 1⟩
      = some (-10000, [0], ⟨Cache.empty.insert (0, 1, true) (-10000), 2⟩) := by
  have h := (minimax_cache_hit_spec G4 1 [0] ⊥ ⊤
    ⟨Cache.empty.insert (0, 1, true) (-10000), 1⟩).2 (-10000) (by decide)
  exact h

theorem mmLoopW_stack (g : Game)
    (f : BoardStack → XInt → XInt → EngState → Option (Int × BoardStack × EngState))
    (hf : ∀ bd a b s r, f bd a b s = some r → r.2.1 = bd) :
    ∀ (ms : List Move) (bd : BoardStack) (best alpha beta : XInt) (s : EngState) r,
      mmLoopW f g ms bd best alpha beta s = some r → r.2.1 = bd := by
  intro ms
  induction ms with
  | nil =>
      intro bd best alpha beta s r h
      obtain rfl : (best, bd, s) = r := by simpa [mmLoopW] using h
      rfl
  | cons mv rest ih =>
      intro bd best alpha beta s r h
      simp only [mmLoopW] at h
      split at h
      · exact absurd h (by simp)
      · rename_i val bd1 s1 hf1
        have hbd1 : bd1 = push_stk g bd mv := hf _ _ _ _ _ hf1
        have hpop : pop_stk bd1 = bd := by rw [hbd1]; rfl
        split at h
        · obtain rfl : (max best (XInt.ofInt val), pop_stk bd1, s1) = r := by simpa using h
          exact hpop
        · rw [ih (pop_stk bd1) _ _ _ _ _ h]
          exact hpop

theorem mmLoopB_stack (g : Game)
    (f : BoardStack → XInt → XInt → EngState → Option (Int × BoardStack × EngState))
    (hf : ∀ bd a b s r, f bd a b s = some r → r.2.1 = bd) :
    ∀ (ms : List Move) (bd : BoardStack) (best alpha beta : XInt) (s : EngState) r,
      mmLoopB f g ms bd best alpha beta s = some r → r.2.1 = bd := by
  intro ms
  induction ms with
  | nil =>
      intro bd best alpha beta s r h
      obtain rfl : (best, bd, s) = r := by simpa [mmLoopB] using h
      rfl
  | cons mv rest ih =>
      intro bd best alpha beta s r h
      simp only [mmLoopB] at h
      split at h
      · exact absurd h (by simp)
      · rename_i val bd1 s1 hf1
        have hbd1 : bd1 = push_stk g bd mv := hf _ _ _ _ _ hf1
        have hpop : pop_stk bd1 = bd := by rw [hbd1]; rfl
        split at h
        · obtain rfl : (min best (XInt.ofInt val), pop_stk bd1, s1) = r := by simpa using h
          exact hpop
        · rw [ih (pop_stk bd1) _ _ _ _ _ h]
          exact hpop

theorem minimaxFull_stack (g : Game) :
    ∀ (d : Nat) (bd : BoardStack) (alpha beta : XInt) (s : EngState) r,
      minimaxFull g d bd alpha beta s = some r → r.2.1 = bd := by
  intro d
  induction d with
  | zero =>
      intro bd alpha beta s r h
      simp only [minimaxFull] at h
      split at h
      · obtain rfl : (_, bd, _) = r := by simpa using h
        rfl
      · obtain rfl : (_, bd, _) = r := by simpa using h
        rfl
  | succ d ih =>
      intro bd alpha beta s r h
      simp only [minimaxFull] at h
      split at h
      · obtain rfl : (_, bd, _) = r := by simpa using h
        rfl
      · split at h
        · obtain rfl : (_, bd, _) = r := by simpa using h
          rfl
        · split at h
          · exact absurd h (by simp)
          · rename_i best bd3 s3 hres
            split at h
            · rename_i n hn
              obtain rfl : (n, bd3, _) = r := by simpa using h
              show bd3 = bd
              split at hres
              · exact mmLoopW_stack g _ (fun bd2 a b s2 r2 hh => ih bd2 a b s2 r2 hh)
                  _ _ _ _ _ _ _ hres
              · exact mmLoopB_stack g _ (fun bd2 a b s2 r2 hh => ih bd2 a b s2 r2 hh)
                  _ _ _ _ _ _ _ hres
            · exact absurd h (by simp)

theorem bmLoopW_stack (g : Game)
    (f : BoardStack → EngState → Option (Int × BoardStack × EngState))
    (hf : ∀ bd s r, f bd s = some r → r.2.1 = bd) :
    ∀ (ms : List Move) (bd : BoardStack) (bs : XInt) (bm : Option Move) (s : EngState) r,
      bmLoopW f g ms bd bs bm s = some r → r.2.1 = bd := by
  intro ms
  induction ms with
  | nil =>
      intro bd bs bm s r h
      obtain rfl : ((bs, bm), bd, s) = r := by simpa [bmLoopW] using h
      rfl
  | cons mv rest ih =>
      intro bd bs bm s r h
      simp only [bmLoopW] at h
      split at h
      · exact absurd h (by simp)
      · rename_i score bd1 s1 hf1
        have hbd1 : bd1 = push_stk g bd mv := hf _ _ _ hf1
        have hpop : pop_stk bd1 = bd := by rw [hbd1]; rfl
        split at h
        · rw [ih (pop_stk bd1) _ _ _ _ h]
          exact hpop
        · rw [ih (pop_stk bd1) _ _ _ _ h]
          exact hpop

theorem bmLoopB_stack (g : Game)
    (f : BoardStack → EngState → Option (Int × BoardStack × EngState))
    (hf : ∀ bd s r, f bd s = some r → r.2.1 = bd) :
    ∀ (ms : List Move) (bd : BoardStack) (bs : XInt) (bm : Option Move) (s : EngState) r,
      bmLoopB f g ms bd bs bm s = some r → r.2.1 = bd := by
  intro ms
  induction ms with
  | nil =>
      intro bd bs bm s r h
      obtain rfl : ((bs, bm), bd, s) = r := by simpa [bmLoopB] using h
      rfl
  | cons mv rest ih =>
      intro bd bs bm s r h
      simp only [bmLoopB] at h
      split at h
      · exact absurd h (by simp)
      · rename_i score bd1 s1 hf1
        have hbd1 : bd1 = push_stk g bd mv := hf _ _ _ hf1
        have hpop : pop_stk bd1 = bd := by rw [hbd1]; rfl
        split at h
        · rw [ih (pop_stk bd1) _ _ _ _ h]
          exact hpop
        · rw [ih (pop_stk bd1) _ _ _ _ h]
          exact hpop

theorem bestMoveFull_stack (g : Game) (bd : BoardStack) (depth : Nat) (s : EngState)
    (r : SearchResult × BoardStack × EngState) (h : bestMoveFull g bd depth s = some r) :
    r.2.1 = bd := by
  simp only [bestMoveFull] at h
  split at h
  · exact absurd h (by simp)
  · rename_i bsm bd1 s1 hres
    split at h
    · rename_i n hn
      obtain rfl : (_, bd1, _) = r := by simpa using h
      show bd1 = bd
      split at hres
      · exact bmLoopW_stack g _
          (fun bd2 s2 r2 hh => minimaxFull_stack g _ bd2 _ _ s2 r2 hh) _ _ _ _ _ _ hres
      · exact bmLoopB_stack g _
          (fun bd2 s2 r2 hh => minimaxFull_stack g _ bd2 _ _ s2 r2 hh) _ _ _ _ _ _ hres
    · exact absurd h (by simp)

/-- C7: every make of a move performed by the move-ordering key probe, by
`minimax` and by `best_move` is matched by an unmake on every exit path —
including beta-cutoff breaks — so the board stack (and with it the current
position, its side to move and legal-move set) on normal return of each of
these operations is identical to its state at entry.  The key probe and the
ordering pass restore the stack unconditionally; the recursive searches
restore it on every normal (`some`) return. -/
theorem make_unmake_balanced :
    (∀ (g : Game) (bd : BoardStack) (m : Move), (key_stk g bd m).2 = bd)
    ∧ (∀ (g : Game) (bd : BoardStack), (move_ordering_stk g bd).2 = bd)
    ∧ (∀ (g : Game) (d : Nat) (bd : BoardStack) (alpha beta : XInt) (s : EngState) r,
        minimaxFull g d bd alpha beta s = some r → r.2.1 = bd)
    ∧ (∀ (g : Game) (bd : BoardStack) (depth : Nat) (s : EngState) r,
        bestMoveFull g bd depth s = some r → r.2.1 = bd) :=
  ⟨fun _ _ _ => rfl, fun _ _ => rfl,
   fun g d bd alpha beta s r h => minimaxFull_stack g d bd alpha beta s r h,
   fun g bd depth s r h => bestMoveFull_stack g bd depth s r h⟩

theorem make_unmake_balanced_witness :
    (key_stk G1 [0] (tmv 1)).2 = [0]
    ∧ (((-10000 : Int), ([0] : BoardStack),
        (⟨Cache.empty.insert (0, 1, true) (-10000), 1⟩ : EngState)) :
        Int × BoardStack × EngState).2.1 = [0]
    ∧ ((((⟨-10, some (tmv 5)⟩ : SearchResult), ([3] : BoardStack),
        (⟨Cache.empty.insert (5, 0, false) (-10), 1⟩ : EngState))) :
        SearchResult × BoardStack × EngState).2.1 = [3] := by
  refine ⟨make_unmake_balanced.1 G1 [0] (tmv 1), ?_, ?_⟩
  · exact make_unmake_balanced.2.2.1 G4 1 [0] ⊥ ⊤ ⟨Cache.empty, 0⟩ _ rfl
  · exact make_unmake_balanced.2.2.2 G1 [3] 1 ⟨Cache.empty, 0⟩ _ rfl

theorem mmLoopW_cache (g : Game) (dc : Nat)
    (f : BoardStack → XInt → XInt → EngState → Option (Int × BoardStack × EngState))
    (hf : ∀ bd a b s r, f bd a b s = some r →
        (∀ k v, s.tt k = some v → r.2.2.tt k = some v)
        ∧ (∀ k, s.tt k = none → r.2.2.tt k = none ∨ k.2.1 ≤ dc)) :
    ∀ (ms : List Move) (bd : BoardStack) (best alpha beta : XInt) (s : EngState) r,
      mmLoopW f g ms bd best alpha beta s = some r →
        (∀ k v, s.tt k = some v → r.2.2.tt k = some v)
        ∧ (∀ k, s.tt k = none → r.2.2.tt k = none ∨ k.2.1 ≤ dc) := by
  intro ms
  induction ms with
  | nil =>
      intro bd best alpha beta s r h
      obtain rfl : (best, bd, s) = r := by simpa [mmLoopW] using h
      exact ⟨fun k v hv => hv, fun k hn => Or.inl hn⟩
  | cons mv rest ih =>
      intro bd best alpha beta s r h
      simp only [mmLoopW] at h
      split at h
      · exact absurd h (by simp)
      · rename_i val bd1 s1 hf1
        have h1 := hf _ _ _ _ _ hf1
        split at h
        · obtain rfl : (max best (XInt.ofInt val), pop_stk bd1, s1) = r := by simpa using h
          exact h1
        · have h2 := ih _ _ _ _ _ _ h
          refine ⟨fun k v hv => h2.1 k v (h1.1 k v hv), fun k hn => ?_⟩
          rcases h1.2 k hn with hn1 | hle
          · exact h2.2 k hn1
          · exact Or.inr hle

theorem mmLoopB_cache (g : Game) (dc : Nat)
    (f : BoardStack → XInt → XInt → EngState → Option (Int × BoardStack × EngState))
    (hf : ∀ bd a b s r, f bd a b s = some r →
        (∀ k v, s.tt k = some v → r.2.2.tt k = some v)
        ∧ (∀ k, s.tt k = none → r.2.2.tt k = none ∨ k.2.1 ≤ dc)) :
    ∀ (ms : List Move) (bd : BoardStack) (best alpha beta : XInt) (s : EngState) r,
      mmLoopB f g ms bd best alpha beta s = some r →
        (∀ k v, s.tt k = some v → r.2.2.tt k = some v)
        ∧ (∀ k, s.tt k = none → r.2.2.tt k = none ∨ k.2.1 ≤ dc) := by
  intro ms
  induction ms with
  | nil =>
      intro bd best alpha beta s r h
      obtain rfl : (best, bd, s) = r := by simpa [mmLoopB] using h
      exact ⟨fun k v hv => hv, fun k hn => Or.inl hn⟩
  | cons mv rest ih =>
      intro bd best alpha beta s r h
      simp only [mmLoopB] at h
      split at h
      · exact absurd h (by simp)
      · rename_i val bd1 s1 hf1
        have h1 := hf _ _ _ _ _ hf1
        split at h
        · obtain rfl : (min best (XInt.ofInt val), pop_stk bd1, s1) = r := by simpa using h
          exact h1
        · have h2 := ih _ _ _ _ _ _ h
          refine ⟨fun k v hv => h2.1 k v (h1.1 k v hv), fun k hn => ?_⟩
          rcases h1.2 k hn with hn1 | hle
          · exact h2.2 k hn1
          · exact Or.inr hle

theorem minimaxFull_cache (g : Game) :
    ∀ (d : Nat) (bd : BoardStack) (alpha beta : XInt) (s : EngState) r,
      minimaxFull g d bd alpha beta s = some r →
        (∀ k v, s.tt k = some v → r.2.2.tt k = some v)
        ∧ (∀ k, s.tt k = none → r.2.2.tt k = none ∨ k.2.1 ≤ d) := by
  intro d
  induction d with
  | zero =>
      intro bd alpha beta s r h
      simp only [minimaxFull] at h
      split at h
      · obtain rfl : (_, bd, ⟨s.tt, s.nodes + 1⟩) = r := by simpa using h
        exact ⟨fun k v hv => hv, fun k hn => Or.inl hn⟩
      · rename_i hkey
        obtain rfl : (_, bd, _) = r := by simpa using h
        refine ⟨fun k v hv => ?_, fun k hn => ?_⟩
        · have hne : k ≠ (g.hash (cur bd), 0, g.turn (cur bd)) := by
            intro he
            rw [he, hkey] at hv
            exact Option.noConfusion hv
          show Cache.insert _ _ _ k = some v
          rw [Cache.insert_other _ _ _ _ hne]
          exact hv
        · by_cases he : k = (g.hash (cur bd), 0, g.turn (cur bd))
          · refine Or.inr ?_
            rw [he]
          · refine Or.inl ?_
            show Cache.insert _ _ _ k = none
            rw [Cache.insert_other _ _ _ _ he]
            exact hn
  | succ d ih =>
      intro bd alpha beta s r h
      simp only [minimaxFull] at h
      split at h
      · obtain rfl : (_, bd, ⟨s.tt, s.nodes + 1⟩) = r := by simpa using h
        exact ⟨fun k v hv => hv, fun k hn => Or.inl hn⟩
      · rename_i hkey
        split at h
        · obtain rfl : (_, bd, _) = r := by simpa using h
          refine ⟨fun k v hv => ?_, fun k hn => ?_⟩
          · have hne : k ≠ (g.hash (cur bd), d + 1, g.turn (cur bd)) := by
              intro he
              rw [he, hkey] at hv
              exact Option.noConfusion hv
            show Cache.insert _ _ _ k = some v
            rw [Cache.insert_other _ _ _ _ hne]
            exact hv
          · by_cases he : k = (g.hash (cur bd), d + 1, g.turn (cur bd))
            · refine Or.inr ?_
              rw [he]
            · refine Or.inl ?_
              show Cache.insert _ _ _ k = none
              rw [Cache.insert_other _ _ _ _ he]
              exact hn
        · split at h
          · exact absurd h (by simp)
          · rename_i best bd3 s3 hres
            have hloop :
                (∀ k v, s.tt k = some v → s3.tt k = some v)
                ∧ (∀ k, s.tt k = none → s3.tt k = none ∨ k.2.1 ≤ d) := by
              split at hres
              · exact mmLoopW_cache g d _ (fun bd2 a b s2 r2 hh => ih bd2 a b s2 r2 hh)
                  _ _ _ _ _ _ _ hres
              · exact mmLoopB_cache g d _ (fun bd2 a b s2 r2 hh => ih bd2 a b s2 r2 hh)
                  _ _ _ _ _ _ _ hres
            split at h
            · rename_i n hn2
              obtain rfl : (n, bd3, _) = r := by simpa using h
              refine ⟨fun k v hv => ?_, fun k hn => ?_⟩
              · have hne : k ≠ (g.hash (cur bd), d + 1, g.turn (cur bd)) := by
                  intro he
                  rw [he, hkey] at hv
                  exact Option.noConfusion hv
                show Cache.insert _ _ _ k = some v
                rw [Cache.insert_other _ _ _ _ hne]
                exact hloop.1 k v hv
              · by_cases he : k = (g.hash (cur bd), d + 1, g.turn (cur bd))
                · refine Or.inr ?_
                  rw [he]
                · rcases hloop.2 k hn with hn3 | hle
                  · refine Or.inl ?_
                    show Cache.insert _ _ _ k = none
                    rw [Cache.insert_other _ _ _ _ he]
                    exact hn3
                  · exact Or.inr (Nat.le_succ_of_le hle)
            · exact absurd h (by simp)

theorem bmLoopW_cache (g : Game)
    (f : BoardStack → EngState → Option (Int × BoardStack × EngState))
    (hf : ∀ bd s r, f bd s = some r → ∀ k v, s.tt k = some v → r.2.2.tt k = some v) :
    ∀ (ms : List Move) (bd : BoardStack) (bs : XInt) (bm : Option Move) (s : EngState) r,
      bmLoopW f g ms bd bs bm s = some r →
        ∀ k v, s.tt k = some v → r.2.2.tt k = some v := by
  intro ms
  induction ms with
  | nil =>
      intro bd bs bm s r h
      obtain rfl : ((bs, bm), bd, s) = r := by simpa [bmLoopW] using h
      exact fun k v hv => hv
  | cons mv rest ih =>
      intro bd bs bm s r h
      simp only [bmLoopW] at h
      split at h
      · exact absurd h (by simp)
      · rename_i score bd1 s1 hf1
        have h1 := hf _ _ _ hf1
        split at h
        · exact fun k v hv => ih _ _ _ _ _ h k v (h1 k v hv)
        · exact fun k v hv => ih _ _ _ _ _ h k v (h1 k v hv)

theorem bmLoopB_cache (g : Game)
    (f : BoardStack → EngState → Option (Int × BoardStack × EngState))
    (hf : ∀ bd s r, f bd s = some r → ∀ k v, s.tt k = some v → r.2.2.tt k = some v) :
    ∀ (ms : List Move) (bd : BoardStack) (bs : XInt) (bm : Option Move) (s : EngState) r,
      bmLoopB f g ms bd bs bm s = some r →
        ∀ k v, s.tt k = some v → r.2.2.tt k = some v := by
  intro ms
  induction ms with
  | nil =>
      intro bd bs bm s r h
      obtain rfl : ((bs, bm), bd, s) = r := by simpa [bmLoopB] using h
      exact fun k v hv => hv
  | cons mv rest ih =>
      intro bd bs bm s r h
      simp only [bmLoopB] at h
      split at h
      · exact absurd h (by simp)
      · rename_i score bd1 s1 hf1
        have h1 := hf _ _ _ hf1
        split at h
        · exact fun k v hv => ih _ _ _ _ _ h k v (h1 k v hv)
        · exact fun k v hv => ih _ _ _ _ _ h k v (h1 k v hv)

theorem bestMoveFull_cache (g : Game) (bd : BoardStack) (depth : Nat) (s : EngState)
    (r : SearchResult × BoardStack × EngState) (h : bestMoveFull g bd depth s = some r) :
    ∀ k v, s.tt k = some v → r.2.2.tt k = some v := by
  simp only [bestMoveFull] at h
  split at h
  · exact absurd h (by simp)
  · rename_i bsm bd1 s1 hres
    split at h
    · rename_i n hn
      obtain rfl : (_, bd1, s1) = r := by simpa using h
      intro k v hv
      show s1.tt k = some v
      split at hres
      · exact bmLoopW_cache g _
          (fun bd2 s2 r2 hh => (minimaxFull_cache g _ bd2 _ _ s2 r2 hh).1)
          _ _ _ _ _ _ hres k v hv
      · exact bmLoopB_cache g _
          (fun bd2 s2 r2 hh => (minimaxFull_cache g _ bd2 _ _ s2 r2 hh).1)
          _ _ _ _ _ _ hres k v hv
    · exact absurd h (by simp)

/-- One top-level invocation on an engine instance: a raw `minimax` call or
a `best_move` call. -/
inductive EngCall : Type
| mm : Nat → BoardStack → XInt → XInt → EngCall
| bm : BoardStack → Nat → EngCall

/-- Engine state after one call.  A call that raises (`none`) leaves the
model state unchanged; in Python the partial cache writes of a raising call
also persist, and they are themselves inserts of absent keys, so the
preservation theorem below holds for the real states a fortiori. -/
def stepCall (g : Game) (c : EngCall) (s : EngState) : EngState :=
  match c with
  | EngCall.mm d bd alpha beta =>
      match minimaxFull g d bd alpha beta s with
      | some r => r.2.2
      | none => s
  | EngCall.bm bd depth =>
      match bestMoveFull g bd depth s with
      | some r => r.2.2
      | none => s

/-- Engine state after a sequence of calls on one instance. -/
def runCalls (g : Game) (cs : List EngCall) (s : EngState) : EngState :=
  cs.foldl (fun s2 c => stepCall g c s2) s

theorem stepCall_cache (g : Game) (c : EngCall) (s : EngState) (k : CacheKey) (v : Int)
    (h : s.tt k = some v) : (stepCall g c s).tt k = some v := by
  cases c with
  | mm d bd alpha beta =>
      simp only [stepCall]
      split
      · rename_i r hr
        exact (minimaxFull_cache g d bd alpha beta s r hr).1 k v h
      · exact h
  | bm bd depth =>
      simp only [stepCall]
      split
      · rename_i r hr
        exact bestMoveFull_cache g bd depth s r hr k v h
      · exact h

/-- C9: the transposition cache is write-once per key and only grows: over
every sequence of `minimax` and `best_move` calls on one engine instance,
once a CacheKey maps to a score, every later state of that instance maps it
to the same score — no call removes the entry or overwrites it with a
different value — and in particular entries persist across successive
top-level `best_move` calls. -/
theorem cache_write_once_and_grows (g : Game) (cs : List EngCall) (s : EngState)
    (k : CacheKey) (v : Int) (h : s.tt k = some v) :
    (runCalls g cs s).tt k = some v := by
  induction cs generalizing s with
  | nil => exact h
  | cons c rest ih =>
      exact ih (stepCall g c s) (stepCall_cache g c s k v h)

theorem cache_write_once_and_grows_witness :
    (runCalls G1 [EngCall.mm 3 [0] ⊥ ⊤, EngCall.bm [0] 2, EngCall.mm 1 [4] ⊥ ⊤]
      ⟨Cache.empty.insert (9, 9, true) 42, 0⟩).tt (9, 9, true) = some 42 :=
  cache_write_once_and_grows G1 _ _ (9, 9, true) 42 (by decide)

theorem XInt.toInt_bot : (⊥ : XInt).toInt = none := rfl

theorem XInt.toInt_top : (⊤ : XInt).toInt = none := rfl

/-- Helper for C2: whenever the current position has no legal moves, the
root loop of `best_move` never runs, `best_score` keeps its infinite initial
value, and the final `int(best_score)` raises (returns `none`) — for every
depth, engine state and side to move. -/
theorem bestMoveFull_no_moves (g : Game) (bd : BoardStack) (depth : Nat) (s : EngState)
    (h : g.legal_moves (cur bd) = []) : bestMoveFull g bd depth s = none := by
  cases hturn : g.turn (cur bd) with
  | true =>
      simp [bestMoveFull, move_ordering_stk, h, hturn, bmLoopW, XInt.toInt_bot]
  | false =>
      simp [bestMoveFull, move_ordering_stk, h, hturn, bmLoopB, XInt.toInt_top]

/-- C2 fails on the code (code bug): on the stalemate position of
`G5_stalemate` (Black to move, no legal moves, evaluation 0), `best_move`
does not return a SearchResult with an absent move and the evaluate score —
its root loop never runs, `best_score` keeps the value `math.inf`, and
`int(best_score)` raises `OverflowError` (modelled as `none`), at depth 1
and at depth 3 alike, even though `evaluate` on the position is exactly 0 as
the claim requires. -/
theorem best_move_stalemate_crash :
    bestMoveFull G5_stalemate [0] 1 ⟨Cache.empty, 0⟩ = none
    ∧ bestMoveFull G5_stalemate [0] 3 ⟨Cache.empty, 0⟩ = none
    ∧ evaluate G5_stalemate 0 = 0 := by
  refine ⟨rfl, rfl, by decide⟩

theorem mmLoopW_total (g : Game)
    (f : BoardStack → XInt → XInt → EngState → Option (Int × BoardStack × EngState))
    (hf : ∀ bd a b s, ∃ n bd2 s2, f bd a b s = some (n, bd2, s2)) :
    ∀ (ms : List Move) (bd : BoardStack) (best alpha beta : XInt) (s : EngState),
      ((best = ⊥ ∧ ms ≠ []) ∨ ∃ n, best = XInt.ofInt n) →
      ∃ n2 bd2 s2, mmLoopW f g ms bd best alpha beta s = some (XInt.ofInt n2, bd2, s2) := by
  intro ms
  induction ms with
  | nil =>
      intro bd best alpha beta s hinv
      rcases hinv with ⟨_, hne⟩ | ⟨n, rfl⟩
      · exact absurd rfl hne
      · exact ⟨n, bd, s, rfl⟩
  | cons mv rest ih =>
      intro bd best alpha beta s hinv
      obtain ⟨val, bd1, s1, hr⟩ := hf (push_stk g bd mv) alpha beta s
      have hfin : ∃ n2, max best (XInt.ofInt val) = XInt.ofInt n2 := by
        rcases hinv with ⟨rfl, _⟩ | ⟨n, rfl⟩
        · exact ⟨val, max_eq_right bot_le⟩
        · rcases max_choice (XInt.ofInt n) (XInt.ofInt val) with h | h
          · exact ⟨n, h⟩
          · exact ⟨val, h⟩
      obtain ⟨n2, hn2⟩ := hfin
      simp only [mmLoopW, hr]
      split
      · exact ⟨n2, pop_stk bd1, s1, by rw [hn2]⟩
      · exact ih (pop_stk bd1) _ _ _ s1 (Or.inr ⟨n2, hn2⟩)

theorem mmLoopB_total (g : Game)
    (f : BoardStack → XInt → XInt → EngState → Option (Int × BoardStack × EngState))
    (hf : ∀ bd a b s, ∃ n bd2 s2, f bd a b s = some (n, bd2, s2)) :
    ∀ (ms : List Move) (bd : BoardStack) (best alpha beta : XInt) (s : EngState),
      ((best = ⊤ ∧ ms ≠ []) ∨ ∃ n, best = XInt.ofInt n) →
      ∃ n2 bd2 s2, mmLoopB f g ms bd best alpha beta s = some (XInt.ofInt n2, bd2, s2) := by
  intro ms
  induction ms with
  | nil =>
      intro bd best alpha beta s hinv
      rcases hinv with ⟨_, hne⟩ | ⟨n, rfl⟩
      · exact absurd rfl hne
      · exact ⟨n, bd, s, rfl⟩
  | cons mv rest ih =>
      intro bd best alpha beta s hinv
      obtain ⟨val, bd1, s1, hr⟩ := hf (push_stk g bd mv) alpha beta s
      have hfin : ∃ n2, min best (XInt.ofInt val) = XInt.ofInt n2 := by
        rcases hinv with ⟨rfl, _⟩ | ⟨n, rfl⟩
        · exact ⟨val, min_eq_right le_top⟩
        · rcases min_choice (XInt.ofInt n) (XInt.ofInt val) with h | h
          · exact ⟨n, h⟩
          · exact ⟨val, h⟩
      obtain ⟨n2, hn2⟩ := hfin
      simp only [mmLoopB, hr]
      split
      · exact ⟨n2, pop_stk bd1, s1, by rw [hn2]⟩
      · exact ih (pop_stk bd1) _ _ _ s1 (Or.inr ⟨n2, hn2⟩)

theorem minimaxFull_total (g : Game)
    (hg : ∀ p, g.is_game_over p = false → g.legal_moves p ≠ []) :
    ∀ (d : Nat) (bd : BoardStack) (alpha beta : XInt) (s : EngState),
      ∃ n bd2 s2, minimaxFull g d bd alpha beta s = some (n, bd2, s2) := by
  intro d
  induction d with
  | zero =>
      intro bd alpha beta s
      simp only [minimaxFull]
      split
      · rename_i v hv
        exact ⟨v, bd, _, rfl⟩
      · exact ⟨_, bd, _, rfl⟩
  | succ d ih =>
      intro bd alpha beta s
      simp only [minimaxFull]
      split
      · rename_i v hv
        exact ⟨v, bd, _, rfl⟩
      · split
        · exact ⟨_, bd, _, rfl⟩
        · rename_i hover
          have hover2 : g.is_game_over (cur bd) = false := by
            cases h2 : g.is_game_over (cur bd) with
            | true => exact absurd h2 hover
            | false => rfl
          have hms : (move_ordering_stk g bd).1 = move_ordering g (cur bd) := by
            rw [move_ordering_stk_eq]
          have hne : (move_ordering_stk g bd).1 ≠ [] := by
            rw [hms]
            intro h0
            have hperm := move_ordering_perm g (cur bd)
            rw [h0] at hperm
            exact hg (cur bd) hover2 hperm.symm.eq_nil
          cases hturn : g.turn (cur bd) with
          | true =>
              obtain ⟨n2, bd2, s2, hloop⟩ := mmLoopW_total g
                (fun bd2 a b s2 => minimaxFull g d bd2 a b s2)
                (fun bd2 a b s2 => ih bd2 a b s2) (move_ordering_stk g bd).1 bd ⊥
                alpha beta ⟨s.tt, s.nodes + 1⟩ (Or.inl ⟨rfl, hne⟩)
              rw [if_pos rfl, hloop]
              exact ⟨n2, bd2, ⟨s2.tt.insert (g.hash (cur bd), d + 1, true) n2, s2.nodes⟩,
                by simp [XInt.toInt_ofInt]⟩
          | false =>
              obtain ⟨n2, bd2, s2, hloop⟩ := mmLoopB_total g
                (fun bd2 a b s2 => minimaxFull g d bd2 a b s2)
                (fun bd2 a b s2 => ih bd2 a b s2) (move_ordering_stk g bd).1 bd ⊤
                alpha beta ⟨s.tt, s.nodes + 1⟩ (Or.inl ⟨rfl, hne⟩)
              rw [if_neg (by simp), hloop]
              exact ⟨n2, bd2, ⟨s2.tt.insert (g.hash (cur bd), d + 1, false) n2, s2.nodes⟩,
                by simp [XInt.toInt_ofInt]⟩

/-- Deterministic replay of the root loop's search calls: the sequence of
(move, score) results that the `best_move` loop obtains from its `minimax`
calls, threading the engine state exactly as the loop does (the board stack
is restored to `bd` before every call, by the stack-preservation lemmas).
This pins down, as a function of the run's actual inputs — the initial
cache, the reset node counter and the ordered root moves — which score each
root move received during that very run. -/
def rootReplay (f : BoardStack → EngState → Option (Int × BoardStack × EngState))
    (g : Game) (bd : BoardStack) : List Move → EngState →
    Option (List (Move × Int) × EngState)
  | [], s => some ([], s)
  | mv :: rest, s =>
      match f (push_stk g bd mv) s with
      | none => none
      | some (n, _, s1) =>
          match rootReplay f g bd rest s1 with
          | none => none
          | some (scores, s2) => some ((mv, n) :: scores, s2)

theorem bmLoopW_replay (g : Game)
    (f : BoardStack → EngState → Option (Int × BoardStack × EngState))
    (hf_stack : ∀ bd s r, f bd s = some r → r.2.1 = bd)
    (hf_total : ∀ bd s, ∃ n bd2 s2, f bd s = some (n, bd2, s2)) (bd : BoardStack) :
    ∀ (ms : List Move) (bs : XInt) (bm : Option Move) (s : EngState),
      ∃ bs2 bm2 s2 scores,
        bmLoopW f g ms bd bs bm s = some ((bs2, bm2), bd, s2)
        ∧ rootReplay f g bd ms s = some (scores, s2)
        ∧ scores.map Prod.fst = ms
        ∧ ((bs2 = bs ∧ bm2 = bm)
            ∨ ∃ n mv, bs2 = XInt.ofInt n ∧ bm2 = some mv ∧ (mv, n) ∈ scores)
        ∧ (ms ≠ [] → bs = ⊥ →
            ∃ n mv, bs2 = XInt.ofInt n ∧ bm2 = some mv ∧ (mv, n) ∈ scores) := by
  intro ms
  induction ms with
  | nil =>
      intro bs bm s
      exact ⟨bs, bm, s, [], rfl, rfl, rfl, Or.inl ⟨rfl, rfl⟩, fun h => absurd rfl h⟩
  | cons mv rest ih =>
      intro bs bm s
      obtain ⟨score, bd1, s1, hr⟩ := hf_total (push_stk g bd mv) s
      have hbd1 : bd1 = push_stk g bd mv := hf_stack _ _ _ hr
      have hpop : pop_stk bd1 = bd := by
        rw [hbd1]
        rfl
      by_cases hlt : bs < XInt.ofInt score
      · obtain ⟨bs2, bm2, s2, scores, heq, hrep, hmap, hinv, _⟩ :=
          ih (XInt.ofInt score) (some mv) s1
        have hgoal :
            bmLoopW f g (mv :: rest) bd bs bm s = some ((bs2, bm2), bd, s2) := by
          simp only [bmLoopW, hr, hpop, if_pos hlt]
          exact heq
        have hrep2 :
            rootReplay f g bd (mv :: rest) s = some ((mv, score) :: scores, s2) := by
          simp only [rootReplay, hr, hrep]
        have hres : ∃ n mv2, bs2 = XInt.ofInt n ∧ bm2 = some mv2
            ∧ (mv2, n) ∈ (mv, score) :: scores := by
          rcases hinv with ⟨hbs2, hbm2⟩ | ⟨n, mv2, hbs2, hbm2, hmem⟩
          · exact ⟨score, mv, hbs2, hbm2, List.mem_cons_self _ _⟩
          · exact ⟨n, mv2, hbs2, hbm2, List.mem_cons_of_mem _ hmem⟩
        exact ⟨bs2, bm2, s2, (mv, score) :: scores, hgoal, hrep2,
          by simp [hmap], Or.inr hres, fun _ _ => hres⟩
      · obtain ⟨bs2, bm2, s2, scores, heq, hrep, hmap, hinv, _⟩ := ih bs bm s1
        have hgoal :
            bmLoopW f g (mv :: rest) bd bs bm s = some ((bs2, bm2), bd, s2) := by
          simp only [bmLoopW, hr, hpop, if_neg hlt]
          exact heq
        have hrep2 :
            rootReplay f g bd (mv :: rest) s = some ((mv, score) :: scores, s2) := by
          simp only [rootReplay, hr, hrep]
        refine ⟨bs2, bm2, s2, (mv, score) :: scores, hgoal, hrep2, by simp [hmap], ?_, ?_⟩
        · rcases hinv with h | ⟨n, mv2, hbs2, hbm2, hmem⟩
          · exact Or.inl h
          · exact Or.inr ⟨n, mv2, hbs2, hbm2, List.mem_cons_of_mem _ hmem⟩
        · intro _ hbs
          exact absurd (hbs ▸ XInt.bot_lt_ofInt score) hlt

theorem bmLoopB_replay (g : Game)
    (f : BoardStack → EngState → Option (Int × BoardStack × EngState))
    (hf_stack : ∀ bd s r, f bd s = some r → r.2.1 = bd)
    (hf_total : ∀ bd s, ∃ n bd2 s2, f bd s = some (n, bd2, s2)) (bd : BoardStack) :
    ∀ (ms : List Move) (bs : XInt) (bm : Option Move) (s : EngState),
      ∃ bs2 bm2 s2 scores,
        bmLoopB f g ms bd bs bm s = some ((bs2, bm2), bd, s2)
        ∧ rootReplay f g bd ms s = some (scores, s2)
        ∧ scores.map Prod.fst = ms
        ∧ ((bs2 = bs ∧ bm2 = bm)
            ∨ ∃ n mv, bs2 = XInt.ofInt n ∧ bm2 = some mv ∧ (mv, n) ∈ scores)
        ∧ (ms ≠ [] → bs = ⊤ →
            ∃ n mv, bs2 = XInt.ofInt n ∧ bm2 = some mv ∧ (mv, n) ∈ scores) := by
  intro ms
  induction ms with
  | nil =>
      intro bs bm s
      exact ⟨bs, bm, s, [], rfl, rfl, rfl, Or.inl ⟨rfl, rfl⟩, fun h => absurd rfl h⟩
  | cons mv rest ih =>
      intro bs bm s
      obtain ⟨score, bd1, s1, hr⟩ := hf_total (push_stk g bd mv) s
      have hbd1 : bd1 = push_stk g bd mv := hf_stack _ _ _ hr
      have hpop : pop_stk bd1 = bd := by
        rw [hbd1]
        rfl
      by_cases hlt : XInt.ofInt score < bs
      · obtain ⟨bs2, bm2, s2, scores, heq, hrep, hmap, hinv, _⟩ :=
          ih (XInt.ofInt score) (some mv) s1
        have hgoal :
            bmLoopB f g (mv :: rest) bd bs bm s = some ((bs2, bm2), bd, s2) := by
          simp only [bmLoopB, hr, hpop, if_pos hlt]
          exact heq
        have hrep2 :
            rootReplay f g bd (mv :: rest) s = some ((mv, score) :: scores, s2) := by
          simp only [rootReplay, hr, hrep]
        have hres : ∃ n mv2, bs2 = XInt.ofInt n ∧ bm2 = some mv2
            ∧ (mv2, n) ∈ (mv, score) :: scores := by
          rcases hinv with ⟨hbs2, hbm2⟩ | ⟨n, mv2, hbs2, hbm2, hmem⟩
          · exact ⟨score, mv, hbs2, hbm2, List.mem_cons_self _ _⟩
          · exact ⟨n, mv2, hbs2, hbm2, List.mem_cons_of_mem _ hmem⟩
        exact ⟨bs2, bm2, s2, (mv, score) :: scores, hgoal, hrep2,
          by simp [hmap], Or.inr hres, fun _ _ => hres⟩
      · obtain ⟨bs2, bm2, s2, scores, heq, hrep, hmap, hinv, _⟩ := ih bs bm s1
        have hgoal :
            bmLoopB f g (mv :: rest) bd bs bm s = some ((bs2, bm2), bd, s2) := by
          simp only [bmLoopB, hr, hpop, if_neg hlt]
          exact heq
        have hrep2 :
            rootReplay f g bd (mv :: rest) s = some ((mv, score) :: scores, s2) := by
          simp only [rootReplay, hr, hrep]
        refine ⟨bs2, bm2, s2, (mv, score) :: scores, hgoal, hrep2, by simp [hmap], ?_, ?_⟩
        · rcases hinv with h | ⟨n, mv2, hbs2, hbm2, hmem⟩
          · exact Or.inl h
          · exact Or.inr ⟨n, mv2, hbs2, hbm2, List.mem_cons_of_mem _ hmem⟩
        · intro _ hbs
          exact absurd (hbs ▸ XInt.ofInt_lt_top score) hlt

/-- C10: for every chess-like adapter (a non-terminal position always offers
a legal move — true of chess, where no legal moves means game over), every
position with at least one legal move and every depth ≥ 1, `best_move`
returns normally a SearchResult whose move field is present and is one of
the legal moves of the input position, and whose score is exactly the value
the engine's own `minimax` call at `depth - 1` computed for the position
reached by that move during this very run: `rootReplay` deterministically
replays the root loop's search calls from the run's initial state (the
incoming cache, node counter reset to 0, the ordered root moves), its final
engine state coincides with the one `best_move` returns, its score list
covers the ordered moves one for one, and the returned (move, score) pair is
among those replayed results.  When exactly one legal move exists, that move
is returned. -/
theorem best_move_returns_legal_move (g : Game)
    (hg : ∀ p, g.is_game_over p = false → g.legal_moves p ≠ [])
    (bd : BoardStack) (depth : Nat) (_hd : 1 ≤ depth) (s : EngState)
    (hm : g.legal_moves (cur bd) ≠ []) :
    ∃ n mv s2 scores,
      bestMoveFull g bd depth s = some (⟨n, some mv⟩, bd, s2)
      ∧ rootReplay (fun bd2 s2 => minimaxFull g (depth - 1) bd2 ⊥ ⊤ s2) g bd
          (move_ordering g (cur bd)) ⟨s.tt, 0⟩ = some (scores, s2)
      ∧ scores.map Prod.fst = move_ordering g (cur bd)
      ∧ (mv, n) ∈ scores
      ∧ mv ∈ g.legal_moves (cur bd)
      ∧ (∀ m0, g.legal_moves (cur bd) = [m0] → mv = m0) := by
  have hms : (move_ordering_stk g bd).1 = move_ordering g (cur bd) := by
    rw [move_ordering_stk_eq]
  have hne : (move_ordering_stk g bd).1 ≠ [] := by
    rw [hms]
    intro h0
    have hperm := move_ordering_perm g (cur bd)
    rw [h0] at hperm
    exact hm hperm.symm.eq_nil
  have hf_stack : ∀ bd2 s2 r,
      minimaxFull g (depth - 1) bd2 ⊥ ⊤ s2 = some r → r.2.1 = bd2 :=
    fun bd2 s2 r h => minimaxFull_stack g (depth - 1) bd2 ⊥ ⊤ s2 r h
  have hf_total : ∀ bd2 s2,
      ∃ n bd3 s3, minimaxFull g (depth - 1) bd2 ⊥ ⊤ s2 = some (n, bd3, s3) :=
    fun bd2 s2 => minimaxFull_total g hg (depth - 1) bd2 ⊥ ⊤ s2
  cases hturn : g.turn (cur bd) with
  | true =>
      obtain ⟨bs2, bm2, s2, scores, heq, hrep, hmap, _, hstart⟩ := bmLoopW_replay g
        (fun bd2 s2 => minimaxFull g (depth - 1) bd2 ⊥ ⊤ s2) hf_stack hf_total bd
        (move_ordering_stk g bd).1 ⊥ none ⟨s.tt, 0⟩
      obtain ⟨n, mv, hbs2, hbm2, hmem⟩ := hstart hne rfl
      subst hbs2
      subst hbm2
      rw [hms] at hrep hmap
      have hmem_ord : mv ∈ move_ordering g (cur bd) := by
        rw [← hmap]
        exact List.mem_map_of_mem Prod.fst hmem
      have hmem_legal : mv ∈ g.legal_moves (cur bd) :=
        (move_ordering_perm g (cur bd)).mem_iff.mp hmem_ord
      refine ⟨n, mv, s2, scores, ?_, hrep, hmap, hmem, hmem_legal, ?_⟩
      · simp only [bestMoveFull, hturn, if_pos rfl]
        rw [heq]
        simp [XInt.toInt_ofInt]
      · intro m0 h0
        have h1 := hmem_legal
        rw [h0] at h1
        simpa using h1
  | false =>
      obtain ⟨bs2, bm2, s2, scores, heq, hrep, hmap, _, hstart⟩ := bmLoopB_replay g
        (fun bd2 s2 => minimaxFull g (depth - 1) bd2 ⊥ ⊤ s2) hf_stack hf_total bd
        (move_ordering_stk g bd).1 ⊤ none ⟨s.tt, 0⟩
      obtain ⟨n, mv, hbs2, hbm2, hmem⟩ := hstart hne rfl
      subst hbs2
      subst hbm2
      rw [hms] at hrep hmap
      have hmem_ord : mv ∈ move_ordering g (cur bd) := by
        rw [← hmap]
        exact List.mem_map_of_mem Prod.fst hmem
      have hmem_legal : mv ∈ g.legal_moves (cur bd) :=
        (move_ordering_perm g (cur bd)).mem_iff.mp hmem_ord
      refine ⟨n, mv, s2, scores, ?_, hrep, hmap, hmem, hmem_legal, ?_⟩
      · simp only [bestMoveFull, hturn]
        rw [if_neg (by simp), heq]
        simp [XInt.toInt_ofInt]
      · intro m0 h0
        have h1 := hmem_legal
        rw [h0] at h1
        simpa using h1

/-- Chess-like abstract game for the C10 witness: every position is
non-terminal and offers exactly one legal move. -/
def G10 : Game where
  turn := fun _ => true
  is_game_over := fun _ => false
  legal_moves := fun p => [tmv (p + 1)]
  push := fun _ m => m.to_square
  is_capture := fun _ _ => false
  piece_at := fun _ _ => none
  is_check := fun _ => false
  is_insufficient_material := fun _ => false
  can_claim_draw := fun _ => false
  hash := fun p => p

theorem best_move_returns_legal_move_witness :
    ∃ n mv s2 scores,
      bestMoveFull G10 [0] 2 ⟨Cache.empty, 0⟩ = some (⟨n, some mv⟩, [0], s2)
      ∧ rootReplay (fun bd2 s2 => minimaxFull G10 1 bd2 ⊥ ⊤ s2) G10 [0]
          (move_ordering G10 (cur [0])) ⟨Cache.empty, 0⟩ = some (scores, s2)
      ∧ scores.map Prod.fst = move_ordering G10 (cur [0])
      ∧ (mv, n) ∈ scores
      ∧ mv ∈ G10.legal_moves (cur [0])
      ∧ (∀ m0, G10.legal_moves (cur [0]) = [m0] → mv = m0) :=
  best_move_returns_legal_move G10 (fun p _ => List.cons_ne_nil _ _) [0] 2 (by decide)
    ⟨Cache.empty, 0⟩ (List.cons_ne_nil _ _)
